import Mathlib

/-!
A verification development for `queue.c`

`queue.c` implements a queue of strings on a circular doubly-linked list with
a sentinel (`struct list_head`), each element (`element_t`) embedding its link
node.  The C functions are embedded here as state-passing functions on an
explicit heap:

* a node address is a `Nat`, a pointer is an `Option Nat` (`none` is `NULL`);
* the heap gives, for every address, the `next` and `prev` fields of the link
  node at that address, the string owned by the element that embeds it
  (`container_of(p, element_t, list)->value`) and whether the element is
  currently allocated;
* a function returns `none` when it dereferences `NULL` or when the fuel given
  to one of its loops runs out, `some _` when it returns normally;
* the `int` that `q_size` returns is a 32-bit two's-complement integer
  (`q_size_int`); where a function only compares the size with 0 or 1, the
  count is a natural number (`q_size`), and `q_size_int_eq` relates the two.
-/

namespace Lab0

/-- A pointer to a list node; `none` is `NULL`. -/
abbrev Ptr := Option Nat

/-- The bytes of a C string, before its terminator. -/
abbrev Str := List Nat

/-- The heap: link fields, owned strings and allocation state, by node address. -/
structure Heap where
  next : Nat → Ptr
  prev : Nat → Ptr
  value : Nat → Str
  live : Nat → Bool

/-- The store `a->next = p`. -/
def Heap.setNext (h : Heap) (a : Nat) (p : Ptr) : Heap :=
  { h with next := Function.update h.next a p }

/-- The store `a->prev = p`. -/
def Heap.setPrev (h : Heap) (a : Nat) (p : Ptr) : Heap :=
  { h with prev := Function.update h.prev a p }

/-- The store of a string into the element at `a`. -/
def Heap.setValue (h : Heap) (a : Nat) (s : Str) : Heap :=
  { h with value := Function.update h.value a s }

/-- Allocation (`true`) or release (`false`) of the element at `a`. -/
def Heap.setLive (h : Heap) (a : Nat) (b : Bool) : Heap :=
  { h with live := Function.update h.live a b }

/-- The C library `strcmp` on byte strings: the difference of the first pair of
bytes that differ, the end of a string counting as the byte 0 and a byte 0
ending the comparison. -/
def strcmp : Str → Str → Int
  | [], [] => 0
  | [], b :: _ => 0 - (b : Int)
  | a :: _, [] => (a : Int)
  | a :: as, b :: bs =>
    if a = b then (if a = 0 then 0 else strcmp as bs) else (a : Int) - (b : Int)

/-- Modelled from the spec: `list_empty` of `list.h`, which is not among the
sources; section 3 of the spec says an empty queue satisfies
`head.next == head`. -/
def list_empty (h : Heap) (head : Nat) : Bool :=
  h.next head == some head

/-- Modelled from the spec: `list_del` of `list.h`, which is not among the
sources; section 4.1 of the spec says `unlink(n)` connects `n.prev` and
`n.next` directly to each other. -/
def list_del (h : Heap) (node : Ptr) : Option Heap := do
  let n ← node
  let nx ← h.next n
  let pv ← h.prev n
  let h1 := h.setPrev nx (some pv)
  pure (h1.setNext pv (some nx))

/-- The function `q_new`, given the result `m` of `malloc`. -/
def q_new (h : Heap) (m : Ptr) : Heap × Ptr :=
  match m with
  | none => (h, none)
  | some head =>
    let h1 := h.setLive head true
    let h2 := h1.setNext head (some head)
    let h3 := h2.setPrev head (some head)
    (h3, some head)

/-- The counting loop of `q_size`, with the counter as a natural number: `p`
is `*pptr`. -/
def q_size_loop (h : Heap) (head : Nat) : Nat → Ptr → Nat → Option Nat
  | 0, _, _ => none
  | fuel + 1, p, count =>
    if p = some head then some count
    else
      match p with
      | none => none
      | some c => q_size_loop h head fuel (h.next c) (count + 1)

/-- The number of nodes that the traversal of `q_size` passes, as a natural
number: the count that the guards of the other functions compare with 0 and
with 1.  The `int` that the C function returns is `q_size_int` below. -/
def q_size (fuel : Nat) (h : Heap) (head : Ptr) : Option Nat :=
  match head with
  | none => some 0
  | some hd =>
    if list_empty h hd then some 0
    else q_size_loop h hd fuel (h.next hd) 0

/-- The largest value of the 32-bit type `int`, `2^31 - 1`. -/
def INT_MAX : Int := 2147483647

/-- The 32-bit `int` that an integer is reduced to: the value in
`[-2^31, 2^31 - 1]` that is congruent to it modulo `2^32`. -/
def int32 (x : Int) : Int :=
  (x + 2147483648) % 4294967296 - 2147483648

/-- The counting loop of `q_size` with `int count`: `p` is `*pptr`, and
`count++` is an addition in 32-bit `int`.  The increment of `INT_MAX`, which C
leaves undefined, is taken to wrap around to `-2^31`, as two's-complement
hardware does. -/
def q_size_int_loop (h : Heap) (head : Nat) : Nat → Ptr → Int → Option Int
  | 0, _, _ => none
  | fuel + 1, p, count =>
    if p = some head then some count
    else
      match p with
      | none => none
      | some c => q_size_int_loop h head fuel (h.next c) (int32 (count + 1))

/-- The function `q_size`, returning the `int` that the C function returns. -/
def q_size_int (fuel : Nat) (h : Heap) (head : Ptr) : Option Int :=
  match head with
  | none => some 0
  | some hd =>
    if list_empty h hd then some 0
    else q_size_int_loop h hd fuel (h.next hd) 0

/-- The function `q_insert_head`; `m` is what `malloc` returns and `sd` tells
whether `strdup` succeeds. -/
def q_insert_head (h : Heap) (head : Ptr) (s : Str) (m : Ptr) (sd : Bool) :
    Option (Heap × Bool) :=
  match head with
  | none => some (h, false)
  | some hd =>
    match m with
    | none => some (h, false)
    | some new =>
      let h := h.setLive new true
      if sd = false then some (h.setLive new false, false)
      else do
        let h := h.setValue new s
        let tmp ← h.next hd
        let h := h.setPrev tmp (some new)
        let h := h.setNext new (some tmp)
        let h := h.setNext hd (some new)
        let h := h.setPrev new (some hd)
        pure (h, true)

/-- The function `q_insert_tail`; `m` is what `malloc` returns and `sd` tells
whether `strdup` succeeds. -/
def q_insert_tail (h : Heap) (head : Ptr) (s : Str) (m : Ptr) (sd : Bool) :
    Option (Heap × Bool) :=
  match head with
  | none => some (h, false)
  | some hd =>
    match m with
    | none => some (h, false)
    | some new =>
      let h := h.setLive new true
      if sd = false then some (h.setLive new false, false)
      else do
        let h := h.setValue new s
        let tmp ← h.prev hd
        let h := h.setNext tmp (some new)
        let h := h.setPrev new (some tmp)
        let h := h.setPrev hd (some new)
        let h := h.setNext new (some hd)
        pure (h, true)

/-- Byte `i` of the memory that starts at the string `s`: the string, its
terminator, then whatever the memory holds beyond it (`junk`). -/
def str_byte (s : Str) (junk : Nat → Nat) (i : Nat) : Nat :=
  if i < s.length then s.getD i 0
  else if i = s.length then 0
  else junk (i - s.length - 1)

/-- The call `memcpy(dst, src, n)` seen from the destination buffer, whose
capacity is its length. -/
def memcpy (dst : List Nat) (src : Nat → Nat) (n : Nat) : List Nat :=
  (List.range dst.length).map (fun i => if i < n then src i else dst.getD i 0)

/-- The two statements `memcpy(sp, tmp->value, bufsize); sp[bufsize - 1] = 0`,
with `bufsize - 1` computed in `size_t` (64 bits). -/
def copy_out (sp : List Nat) (s : Str) (bufsize : Nat) (junk : Nat → Nat) : List Nat :=
  (memcpy sp (str_byte s junk) bufsize).set ((bufsize + 2 ^ 64 - 1) % 2 ^ 64) 0

/-- The indices of the source that `memcpy(dst, src, n)` reads, which are also
the indices of the destination it writes. -/
def memcpy_indices (n : Nat) : List Nat :=
  List.range n

/-- The indices of the buffer `sp` that the two statements
`memcpy(sp, tmp->value, bufsize); sp[bufsize - 1] = 0` write, `bufsize - 1`
computed in `size_t` (64 bits). -/
def copy_out_writes (bufsize : Nat) : List Nat :=
  memcpy_indices bufsize ++ [(bufsize + 2 ^ 64 - 1) % 2 ^ 64]

/-- The function `q_remove_head`: the new heap, the element returned and the
buffer `sp` after the call (`none` when `sp` is `NULL`). -/
def q_remove_head (fuel : Nat) (h : Heap) (head : Ptr) (sp : Option (List Nat))
    (bufsize : Nat) (junk : Nat → Nat) : Option (Heap × Ptr × Option (List Nat)) := do
  let n ← q_size fuel h head
  if n = 0 then pure (h, none, sp)
  else do
    let hd ← head
    let r ← h.next hd
    let h := h.setNext hd (h.next r)
    let rn ← h.next r
    let h := h.setPrev rn (some hd)
    pure (h, some r, sp.map (fun buf => copy_out buf (h.value r) bufsize junk))

/-- The function `q_remove_tail`. -/
def q_remove_tail (fuel : Nat) (h : Heap) (head : Ptr) (sp : Option (List Nat))
    (bufsize : Nat) (junk : Nat → Nat) : Option (Heap × Ptr × Option (List Nat)) := do
  let n ← q_size fuel h head
  if n = 0 then pure (h, none, sp)
  else do
    let hd ← head
    let r ← h.prev hd
    let rp ← h.prev r
    let h := h.setNext rp (some hd)
    let h := h.setPrev hd (h.prev r)
    pure (h, some r, sp.map (fun buf => copy_out buf (h.value r) bufsize junk))

/-- The function `q_release_element`: the string and the element are freed. -/
def q_release_element (h : Heap) (e : Nat) : Heap :=
  h.setLive e false

/-- The loop of `q_delete_mid`; returns `slow` at loop exit. -/
def q_delete_mid_loop (h : Heap) (head : Nat) : Nat → Ptr → Ptr → Option Ptr
  | 0, _, _ => none
  | fuel + 1, slow, fast =>
    if fast = some head then some slow
    else do
      let f ← fast
      if h.next f = some head then some slow
      else do
        let s ← slow
        let fn ← h.next f
        q_delete_mid_loop h head fuel (h.next s) (h.next fn)

/-- The function `q_delete_mid`. -/
def q_delete_mid (fuel : Nat) (h : Heap) (head : Ptr) : Option (Heap × Bool) := do
  let n ← q_size fuel h head
  if n = 0 then pure (h, false)
  else do
    let hd ← head
    let first ← h.next hd
    let slow ← q_delete_mid_loop h hd fuel (some first) (h.next first)
    let s ← slow
    let sp ← h.prev s
    let h := h.setNext sp (h.next s)
    let sn ← h.next s
    let h := h.setPrev sn (h.prev s)
    pure (q_release_element h s, true)

/-- The inner loop of `q_delete_dup`, at the node `tmp`. -/
def q_delete_dup_inner (head : Nat) : Nat → Heap → Nat → Option Heap
  | 0, _, _ => none
  | fuel + 1, h, tmp =>
    if h.next tmp = some head then some h
    else do
      let tmp2 ← h.next tmp
      if strcmp (h.value tmp) (h.value tmp2) = 0 then do
        let h ← list_del h (h.next tmp)
        q_delete_dup_inner head fuel (q_release_element h tmp2) tmp
      else some h

/-- The outer loop of `q_delete_dup`. -/
def q_delete_dup_loop (head : Nat) : Nat → Heap → Ptr → Option Heap
  | 0, _, _ => none
  | fuel + 1, h, tmp =>
    if tmp = some head then some h
    else do
      let t ← tmp
      let h ← q_delete_dup_inner head fuel h t
      q_delete_dup_loop head fuel h (h.next t)

/-- The function `q_delete_dup`. -/
def q_delete_dup (fuel : Nat) (h : Heap) (head : Ptr) : Option (Heap × Bool) := do
  let n ← q_size fuel h head
  if n < 1 then pure (h, false)
  else do
    let hd ← head
    let h ← q_delete_dup_loop hd fuel h (h.next hd)
    pure (h, true)

/-- The loop of `q_swap`. -/
def q_swap_loop (head : Nat) : Nat → Heap → Ptr → Ptr → Option Heap
  | 0, _, _, _ => none
  | fuel + 1, h, node1, node2 =>
    if node1 ≠ some head ∧ node2 ≠ some head then do
      let n1 ← node1
      let n2 ← node2
      let p ← h.prev n1
      let h := h.setNext p (some n2)
      let h := h.setPrev n2 (h.prev n1)
      let nn ← h.next n2
      let h := h.setPrev nn (some n1)
      let h := h.setNext n1 (h.next n2)
      let h := h.setPrev n1 (some n2)
      let h := h.setNext n2 (some n1)
      let node1 := h.next n1
      if node1 = some head then some h
      else do
        let m ← node1
        q_swap_loop head fuel h node1 (h.next m)
    else some h

/-- The function `q_swap`. -/
def q_swap (fuel : Nat) (h : Heap) (head : Ptr) : Option Heap := do
  let n ← q_size fuel h head
  if n ≤ 1 then pure h
  else do
    let hd ← head
    let node1 ← h.next hd
    q_swap_loop hd fuel h (some node1) (h.next node1)

/-- The `do ... while` loop of `q_reverse`. -/
def q_reverse_loop (head : Nat) : Nat → Heap → Nat → Ptr → Ptr → Option Heap
  | 0, _, _, _, _ => none
  | fuel + 1, h, ptr, prev_node, next_node =>
    let h := h.setPrev ptr next_node
    let h := h.setNext ptr prev_node
    match h.prev ptr with
    | none => none
    | some p =>
      if p = head then some h
      else q_reverse_loop head fuel h p (some ptr) (h.next p)

/-- The function `q_reverse`. -/
def q_reverse (fuel : Nat) (h : Heap) (head : Ptr) : Option Heap := do
  let n ← q_size fuel h head
  if n ≤ 1 then pure h
  else do
    let hd ← head
    q_reverse_loop hd fuel h hd (h.prev hd) (h.next hd)

/-- The `while (list1 && list2)` loop of `merge`; returns the heap and the
final `list1`, `list2` and `tail`. -/
def merge_loop : Nat → Heap → Ptr → Ptr → Nat → Option (Heap × Ptr × Ptr × Nat)
  | 0, _, _, _, _ => none
  | fuel + 1, h, list1, list2, tail =>
    match list1, list2 with
    | some a, some b =>
      if strcmp (h.value a) (h.value b) ≤ 0 then do
        let h := h.setPrev a (some tail)
        let h := h.setNext tail (some a)
        let t ← h.next tail
        merge_loop fuel h (h.next a) (some b) t
      else do
        let h := h.setPrev b (some tail)
        let h := h.setNext tail (some b)
        let t ← h.next tail
        merge_loop fuel h (some a) (h.next b) t
    | _, _ => some (h, list1, list2, tail)

/-- The statements of `merge` after its loop, on the final `list1`, `list2`
and `tail`: the list that is not exhausted is linked after `tail`. -/
def merge_finish (r : Heap × Ptr × Ptr × Nat) : Option Heap := do
  let node := if r.2.2.1 = none then r.2.1 else r.2.2.1
  let n ← node
  let h := r.1.setPrev n (some r.2.2.2)
  pure (h.setNext r.2.2.2 node)

/-- The function `merge`. -/
def merge (fuel : Nat) (h : Heap) (list1 list2 : Ptr) : Option (Heap × Ptr) :=
  match list1, list2 with
  | some a, some b =>
    let first := if strcmp (h.value a) (h.value b) ≤ 0 then a else b
    let l1 := if strcmp (h.value a) (h.value b) ≤ 0 then h.next a else some a
    let l2 := if strcmp (h.value a) (h.value b) ≤ 0 then some b else h.next b
    ((merge_loop fuel h l1 l2 first).bind merge_finish).map (fun h => (h, some first))
  | _, _ => some (h, if list2 = none then list1 else list2)

/-- The slow/fast loop of `merge_sort`; returns `slow` at loop exit. -/
def merge_sort_split (h : Heap) : Nat → Ptr → Ptr → Option Ptr
  | 0, _, _ => none
  | fuel + 1, slow, fast =>
    match fast with
    | none => some slow
    | some f =>
      match h.next f with
      | none => some slow
      | some fn => do
        let s ← slow
        merge_sort_split h fuel (h.next s) (h.next fn)

/-- The function `merge_sort`; the fuel bounds the recursion depth and every
loop. -/
def merge_sort : Nat → Heap → Ptr → Option (Heap × Ptr)
  | 0, _, _ => none
  | fuel + 1, h, pptr2first =>
    match pptr2first with
    | none => some (h, none)
    | some a =>
      if h.next a = none then some (h, pptr2first)
      else do
        let slow ← merge_sort_split h fuel pptr2first (h.next a)
        let s ← slow
        let tmp ← h.next s
        let h := h.setPrev tmp none
        let h := h.setNext s none
        let (h, l1) ← merge_sort fuel h pptr2first
        let (h, l2) ← merge_sort fuel h (some tmp)
        merge fuel h l1 l2

/-- The last loop of `q_sort`: the first node, from `p` on, whose `next` is
`NULL`. -/
def q_sort_last (h : Heap) : Nat → Nat → Option Nat
  | 0, _ => none
  | fuel + 1, p =>
    match h.next p with
    | none => some p
    | some q => q_sort_last h fuel q

/-- The function `q_sort`. -/
def q_sort (fuel : Nat) (h : Heap) (head : Ptr) : Option Heap := do
  let n ← q_size fuel h head
  if n ≤ 1 then pure h
  else do
    let hd ← head
    let tmp := h.next hd
    let last ← h.prev hd
    let h := h.setNext last none
    let first ← h.next hd
    let h := h.setPrev first none
    let h := h.setPrev hd none
    let h := h.setNext hd none
    let (h, newhead) ← merge_sort fuel h tmp
    let h := h.setNext hd newhead
    let nh ← newhead
    let h := h.setPrev nh (some hd)
    let l ← q_sort_last h fuel hd
    let h := h.setPrev hd (some l)
    pure (h.setNext l (some hd))

/-! ## Reading a queue -/

/-- The nodes met by following `next` from `p` until `head`. -/
def traverse_from (h : Heap) (head : Nat) : Nat → Ptr → Option (List Nat)
  | 0, _ => none
  | fuel + 1, p =>
    if p = some head then some []
    else
      match p with
      | none => none
      | some c => (traverse_from h head fuel (h.next c)).map (fun l => c :: l)

/-- The head-to-tail traversal of a queue: its element nodes, in order. -/
def traverse (fuel : Nat) (h : Heap) (head : Nat) : Option (List Nat) :=
  traverse_from h head fuel (h.next head)

/-- The strings met on the head-to-tail traversal. -/
def strings (fuel : Nat) (h : Heap) (head : Nat) : Option (List Str) :=
  (traverse fuel h head).map (fun l => l.map h.value)

/-! ## Driving the queue -/

/-- A heap in which nothing is allocated. -/
def blank : Heap :=
  ⟨fun _ => none, fun _ => none, fun _ => [], fun _ => false⟩

/-- Successive calls of `q_insert_tail`, one for each string, every allocation
succeeding and `malloc` returning the address paired with the string; `none`
if a call fails. -/
def insert_tails (h : Heap) (head : Ptr) : List (Nat × Str) → Option Heap
  | [] => some h
  | (a, s) :: rest =>
    match q_insert_tail h head s (some a) true with
    | some (g, true) => insert_tails g head rest
    | _ => none

/-- A call of one of the four functions that add or remove an element, with
the arguments of the call and, for an insertion, what `malloc` returns and
whether `strdup` succeeds. -/
inductive Op where
  | insert_head (s : Str) (m : Ptr) (sd : Bool)
  | insert_tail (s : Str) (m : Ptr) (sd : Bool)
  | remove_head (sp : Option (List Nat)) (bufsize : Nat)
  | remove_tail (sp : Option (List Nat)) (bufsize : Nat)

/-- One call: the heap after it, 1 or 0 as it is an insertion that succeeds
(returns `true`) or not, and 1 or 0 as it is a removal that succeeds (returns
an element) or not. -/
def run_op (fuel : Nat) (junk : Nat → Nat) (head : Ptr) (h : Heap) :
    Op → Option (Heap × Nat × Nat)
  | Op.insert_head s m sd =>
    (q_insert_head h head s m sd).map (fun r => (r.1, if r.2 = true then 1 else 0, 0))
  | Op.insert_tail s m sd =>
    (q_insert_tail h head s m sd).map (fun r => (r.1, if r.2 = true then 1 else 0, 0))
  | Op.remove_head sp bufsize =>
    (q_remove_head fuel h head sp bufsize junk).map
      (fun r => (r.1, 0, if r.2.1 = none then 0 else 1))
  | Op.remove_tail sp bufsize =>
    (q_remove_tail fuel h head sp bufsize junk).map
      (fun r => (r.1, 0, if r.2.1 = none then 0 else 1))

/-- A sequence of calls: the heap after them, the number of insertions that
succeed and the number of removals that succeed. -/
def run_ops (fuel : Nat) (junk : Nat → Nat) (head : Ptr) :
    Heap → List Op → Option (Heap × Nat × Nat)
  | h, [] => some (h, 0, 0)
  | h, op :: rest =>
    match run_op fuel junk head h op with
    | none => none
    | some (g, k, j) => (run_ops fuel junk head g rest).map (fun r => (r.1, k + r.2.1, j + r.2.2))

/-- The contract of `malloc` along a sequence of calls: every block it
returns is one that is not allocated when it returns it. -/
def fresh_ops (fuel : Nat) (junk : Nat → Nat) (head : Ptr) : Heap → List Op → Bool
  | _, [] => true
  | h, op :: rest =>
    (match op with
      | Op.insert_head _ (some a) _ => !h.live a
      | Op.insert_tail _ (some a) _ => !h.live a
      | _ => true) &&
    (match run_op fuel junk head h op with
      | none => true
      | some (g, _, _) => fresh_ops fuel junk head g rest)

/-- The `n` calls `q_insert_tail(head, "")` in which `malloc` returns the
addresses `a`, `a + 1`, ..., `a + n - 1` in turn and `strdup` succeeds. -/
def tail_inserts (a n : Nat) : List Op :=
  (List.range' a n).map (fun b => Op.insert_tail [] (some b) true)

/-- The queue made by `q_new` at address 0 followed by `q_insert_tail` of
"banana", "apple" and "cherry", allocated at the addresses 1, 2 and 3. -/
def fruit_queue : Heap :=
  (insert_tails (q_new blank (some 0)).1 (some 0)
    [(1, [98, 97, 110, 97, 110, 97]), (2, [97, 112, 112, 108, 101]),
      (3, [99, 104, 101, 114, 114, 121])]).getD blank

/-- The queue made by `q_new` at address 0 followed by `q_insert_tail` of "b",
"a", "b" and "a", allocated at the addresses 1, 2, 3 and 4. -/
def twice_queue : Heap :=
  (insert_tails (q_new blank (some 0)).1 (some 0)
    [(1, [98]), (2, [97]), (3, [98]), (4, [97])]).getD blank

/-- The queue made by `q_new` at address 0 followed by `q_insert_tail` of "a",
"b", "c", "d", "e" and "f", allocated at the addresses 1 to 6. -/
def six_queue : Heap :=
  (insert_tails (q_new blank (some 0)).1 (some 0)
    [(1, [97]), (2, [98]), (3, [99]), (4, [100]), (5, [101]), (6, [102])]).getD blank

/-- The queue made by `q_new` at address 0 followed by `q_insert_tail` of "a",
"a" and "b", allocated at the addresses 1, 2 and 3. -/
def aab_queue : Heap :=
  (insert_tails (q_new blank (some 0)).1 (some 0) [(1, [97]), (2, [97]), (3, [98])]).getD blank

/-- A heap with two `NULL`-terminated lists: the nodes 1, 2, 3 with the strings
"a", "c", "e" and the nodes 4, 5 with the strings "b", "d". -/
def two_chains : Heap :=
  { next := fun n => if n = 1 then some 2 else if n = 2 then some 3 else
      if n = 4 then some 5 else none
    prev := fun n => if n = 2 then some 1 else if n = 3 then some 2 else
      if n = 5 then some 4 else none
    value := fun n => if n = 1 then [97] else if n = 2 then [99] else if n = 3 then [101] else
      if n = 4 then [98] else if n = 5 then [100] else []
    live := fun n => decide (1 ≤ n ∧ n ≤ 5) }

/-! ## Lists of nodes -/

/-- The exchange of each adjacent pair of a list (first with second, third
with fourth, and so on), a last unpaired element staying where it is: what
section 4.3 of the spec says `swap` does to the traversal. -/
def swap_pairs : List Nat → List Nat
  | a :: b :: rest => b :: a :: swap_pairs rest
  | l => l

/-! ## Well-formed queues -/

/-- The order `strcmp(a, b) <= 0` on nodes, by the strings `v` gives them. -/
def str_le (v : Nat → Str) (a b : Nat) : Bool :=
  decide (strcmp (v a) (v b) ≤ 0)

/-- The test `strcmp(a, b) == 0` on nodes, by the strings `v` gives them. -/
def str_eq (v : Nat → Str) (a b : Nat) : Bool :=
  decide (strcmp (v a) (v b) = 0)

/-- What is left of the nodes `a :: l` when, walking them once, every node
whose string equals the string of the node kept last before it is dropped:
`a` is kept, and each run of equal successors of a kept node is dropped. -/
def dedup_from (v : Nat → Str) : Nat → List Nat → List Nat
  | a, [] => [a]
  | a, b :: rest => if str_eq v a b then dedup_from v a rest else a :: dedup_from v b rest

/-- One representative, the first, of every run of adjacent nodes with equal
strings: what section 4.3 of the spec says `delete_dup` leaves. -/
def dedup_adj (v : Nat → Str) : List Nat → List Nat
  | [] => []
  | a :: rest => dedup_from v a rest


/-- Following `f` from `a` visits the nodes `xs` in order and then arrives at `b`. -/
def Path (f : Nat → Ptr) : Nat → List Nat → Ptr → Prop
  | a, [], b => f a = b
  | a, x :: xs, b => f a = some x ∧ Path f x xs b

instance Path.instDecidable (f : Nat → Ptr) : ∀ (a : Nat) (xs : List Nat) (b : Ptr), Decidable (Path f a xs b)
  | a, [], b => inferInstanceAs (Decidable (f a = b))
  | a, x :: xs, b =>
    have := Path.instDecidable f x xs b
    inferInstanceAs (Decidable (f a = some x ∧ Path f x xs b))

/-- Every node of `xs` is sent by `f` to the node before it in `a :: xs`. -/
def Back (f : Nat → Ptr) : Nat → List Nat → Prop
  | _, [] => True
  | a, x :: xs => f x = some a ∧ Back f x xs

instance Back.instDecidable (f : Nat → Ptr) : ∀ (a : Nat) (xs : List Nat), Decidable (Back f a xs)
  | _, [] => inferInstanceAs (Decidable True)
  | a, x :: xs =>
    have := Back.instDecidable f x xs
    inferInstanceAs (Decidable (f x = some a ∧ Back f x xs))

/-- The heap holds a `NULL`-terminated list whose nodes are, in order, `l`:
`next` leads through `l` to `NULL` and `prev` of every node but the first is
the node before it. -/
def NullChain (h : Heap) : List Nat → Prop
  | [] => True
  | a :: xs => Path h.next a xs none ∧ Back h.prev a xs

instance NullChain.instDecidable (h : Heap) : ∀ (l : List Nat), Decidable (NullChain h l)
  | [] => inferInstanceAs (Decidable True)
  | a :: xs => inferInstanceAs (Decidable (Path h.next a xs none ∧ Back h.prev a xs))

/-- The heap holds at `head` a circular doubly-linked list whose element nodes
are, from head to tail, `xs`: the nodes are distinct, `next` leads from the
sentinel through `xs` back to the sentinel, and `prev` of every node (the
sentinel included) is the node before it. -/
def Ring (h : Heap) (head : Nat) (xs : List Nat) : Prop :=
  (head :: xs).Nodup ∧ Path h.next head xs (some head) ∧ Back h.prev head (xs ++ [head])

instance Ring.instDecidable (h : Heap) (head : Nat) (xs : List Nat) : Decidable (Ring h head xs) :=
  inferInstanceAs (Decidable (_ ∧ _ ∧ _))

/-- The links of the node `n` are consistent: `n->next->prev == n` and
`n->prev->next == n`. -/
def Consistent (h : Heap) (n : Nat) : Prop :=
  (h.next n).bind h.prev = some n ∧ (h.prev n).bind h.next = some n

/-- The heap holds at `head` a circular doubly-linked list in the words of
section 3 of the spec: following `next` from the sentinel leads through `xs`
and back to the sentinel, which is met again only then, and the links of every
node, the sentinel included, are consistent. -/
def Circular (h : Heap) (head : Nat) (xs : List Nat) : Prop :=
  head ∉ xs ∧ Path h.next head xs (some head) ∧ ∀ n ∈ head :: xs, Consistent h n

/-- A queue as the functions receive it: an absent queue (`NULL`) has no
elements, an existing one is a ring. -/
def Queue (h : Heap) (head : Ptr) (xs : List Nat) : Prop :=
  match head with
  | none => xs = []
  | some hd => Ring h hd xs

instance Queue.instDecidable (h : Heap) : ∀ (head : Ptr) (xs : List Nat), Decidable (Queue h head xs)
  | none, xs => inferInstanceAs (Decidable (xs = []))
  | some hd, xs => inferInstanceAs (Decidable (Ring h hd xs))

@[simp] theorem setNext_next (h : Heap) (a : Nat) (p : Ptr) :
    (h.setNext a p).next = Function.update h.next a p := rfl
@[simp] theorem setNext_prev (h : Heap) (a : Nat) (p : Ptr) : (h.setNext a p).prev = h.prev := rfl
@[simp] theorem setNext_value (h : Heap) (a : Nat) (p : Ptr) : (h.setNext a p).value = h.value := rfl
@[simp] theorem setNext_live (h : Heap) (a : Nat) (p : Ptr) : (h.setNext a p).live = h.live := rfl
@[simp] theorem setPrev_prev (h : Heap) (a : Nat) (p : Ptr) :
    (h.setPrev a p).prev = Function.update h.prev a p := rfl
@[simp] theorem setPrev_next (h : Heap) (a : Nat) (p : Ptr) : (h.setPrev a p).next = h.next := rfl
@[simp] theorem setPrev_value (h : Heap) (a : Nat) (p : Ptr) : (h.setPrev a p).value = h.value := rfl
@[simp] theorem setPrev_live (h : Heap) (a : Nat) (p : Ptr) : (h.setPrev a p).live = h.live := rfl
@[simp] theorem setValue_value (h : Heap) (a : Nat) (s : Str) :
    (h.setValue a s).value = Function.update h.value a s := rfl
@[simp] theorem setValue_next (h : Heap) (a : Nat) (s : Str) : (h.setValue a s).next = h.next := rfl
@[simp] theorem setValue_prev (h : Heap) (a : Nat) (s : Str) : (h.setValue a s).prev = h.prev := rfl
@[simp] theorem setValue_live (h : Heap) (a : Nat) (s : Str) : (h.setValue a s).live = h.live := rfl
@[simp] theorem setLive_live (h : Heap) (a : Nat) (b : Bool) :
    (h.setLive a b).live = Function.update h.live a b := rfl
@[simp] theorem setLive_next (h : Heap) (a : Nat) (b : Bool) : (h.setLive a b).next = h.next := rfl
@[simp] theorem setLive_prev (h : Heap) (a : Nat) (b : Bool) : (h.setLive a b).prev = h.prev := rfl
@[simp] theorem setLive_value (h : Heap) (a : Nat) (b : Bool) : (h.setLive a b).value = h.value := rfl

theorem Path_congr {f g : Nat → Ptr} {a : Nat} {xs : List Nat} {b : Ptr}
    (hfg : ∀ x ∈ a :: xs, f x = g x) (hp : Path f a xs b) : Path g a xs b := by
  induction xs generalizing a with
  | nil => simpa [Path, ← hfg a (by simp)] using hp
  | cons x xs ih =>
    refine ⟨by rw [← hfg a (by simp)]; exact hp.1, ih (fun y hy => hfg y ?_) hp.2⟩
    exact List.mem_cons_of_mem _ hy

theorem Back_congr {f g : Nat → Ptr} {a : Nat} {xs : List Nat}
    (hfg : ∀ x ∈ xs, f x = g x) (hp : Back f a xs) : Back g a xs := by
  induction xs generalizing a with
  | nil => trivial
  | cons x xs ih =>
    refine ⟨by rw [← hfg x (by simp)]; exact hp.1, ih (fun y hy => hfg y ?_) hp.2⟩
    exact List.mem_cons_of_mem _ hy

theorem Path_update {f : Nat → Ptr} {a : Nat} {xs : List Nat} {b : Ptr} {c : Nat} {v : Ptr}
    (hc : c ∉ a :: xs) (hp : Path f a xs b) : Path (Function.update f c v) a xs b :=
  Path_congr (fun x hx => by
    rw [Function.update_noteq]; rintro rfl; exact hc hx) hp

theorem Back_update {f : Nat → Ptr} {a : Nat} {xs : List Nat} {c : Nat} {v : Ptr}
    (hc : c ∉ xs) (hp : Back f a xs) : Back (Function.update f c v) a xs :=
  Back_congr (fun x hx => by
    rw [Function.update_noteq]; rintro rfl; exact hc hx) hp

theorem Path_append {f : Nat → Ptr} {a : Nat} {xs : List Nat} {y : Nat} {ys : List Nat} {b : Ptr} :
    Path f a (xs ++ y :: ys) b ↔ Path f a xs (some y) ∧ Path f y ys b := by
  induction xs generalizing a with
  | nil => simp [Path]
  | cons x xs ih => simp [Path, ih, and_assoc]

theorem Back_append {f : Nat → Ptr} {a : Nat} {xs ys : List Nat} :
    Back f a (xs ++ ys) ↔ Back f a xs ∧ Back f ((a :: xs).getLast (by simp)) ys := by
  induction xs generalizing a with
  | nil => simp [Back]
  | cons x xs ih => simp [Back, ih, and_assoc]

theorem Back_snoc_iff_Path_reverse {f : Nat → Ptr} {a b : Nat} {xs : List Nat} :
    Back f a (xs ++ [b]) ↔ Path f b xs.reverse (some a) := by
  induction xs generalizing a with
  | nil => simp [Back, Path]
  | cons x xs ih =>
    rw [List.reverse_cons, Path_append]
    simp [Back, Path, ih, and_comm]

/-- A path determines the nodes it visits: two paths from the same node to the
same end, neither passing through that end, are equal. -/
theorem Path_unique {f : Nat → Ptr} {a e : Nat} {xs ys : List Nat}
    (hx : Path f a xs (some e)) (hy : Path f a ys (some e))
    (hex : e ∉ xs) (hey : e ∉ ys) : xs = ys := by
  induction xs generalizing a ys with
  | nil =>
    cases ys with
    | nil => rfl
    | cons y ys =>
      simp only [Path] at hx hy
      rw [hx] at hy
      simp at hy hey
      exact absurd hy.1 hey.1
  | cons x xs ih =>
    cases ys with
    | nil =>
      simp only [Path] at hx hy
      rw [hx.1] at hy
      simp at hy hex
      exact absurd hy.symm hex.1
    | cons y ys =>
      simp only [Path] at hx hy
      have : x = y := by
        have := hx.1.symm.trans hy.1
        simpa using this
      subst this
      simp at hex hey
      rw [ih hx.2 hy.2 hex.2 hey.2]

/-- The successor of the node at index `i` of a path is the node at index `i + 1`. -/
theorem Path_next_getElem {f : Nat → Ptr} {a : Nat} {xs : List Nat} {b : Nat}
    (hp : Path f a xs (some b)) (i : Nat) (x : Nat) (hi : (a :: xs)[i]? = some x) :
    f x = (a :: xs ++ [b])[i + 1]? := by
  induction xs generalizing a i with
  | nil =>
    cases i with
    | zero => simp at hi; subst hi; simpa [Path] using hp
    | succ i => simp at hi
  | cons y ys ih =>
    cases i with
    | zero => simp at hi; subst hi; simpa using hp.1
    | succ i =>
      have := ih hp.2 i (by simpa using hi)
      simpa using this

theorem q_size_loop_path {h : Heap} {head c : Nat} {xs : List Nat}
    (hp : Path h.next c xs (some head)) (hn : head ∉ c :: xs) (fuel count : Nat)
    (hf : xs.length + 2 ≤ fuel) :
    q_size_loop h head fuel (some c) count = some (count + xs.length + 1) := by
  induction xs generalizing c fuel count with
  | nil =>
    obtain ⟨fuel, rfl⟩ : ∃ k, fuel = k + 2 := ⟨fuel - 2, by simp at hf; omega⟩
    have hc : c ≠ head := fun e => hn (by simp [e])
    simp only [Path] at hp
    simp [q_size_loop, hc, hp]
  | cons x xs ih =>
    obtain ⟨fuel, rfl⟩ : ∃ k, fuel = k + 1 := ⟨fuel - 1, by simp at hf; omega⟩
    have hc : c ≠ head := fun e => hn (by simp [e])
    have hn' : head ∉ x :: xs := fun e => hn (List.mem_cons_of_mem _ e)
    simp only [q_size_loop, Option.some.injEq, hc, if_false, hp.1]
    rw [ih hp.2 hn' fuel (count + 1) (by simp at hf ⊢; omega)]
    simp; omega

theorem q_size_ring {h : Heap} {head : Nat} {xs : List Nat} (hr : Ring h head xs)
    (fuel : Nat) (hf : xs.length < fuel) : q_size fuel h (some head) = some xs.length := by
  obtain ⟨hnd, hp, -⟩ := hr
  cases xs with
  | nil =>
    simp only [Path] at hp
    simp [q_size, list_empty, hp]
  | cons x xs =>
    have hx : x ≠ head := by
      rintro rfl; simp at hnd
    have hn' : head ∉ x :: xs := (List.nodup_cons.mp hnd).1
    simp only [q_size, list_empty, hp.1, beq_iff_eq, Option.some.injEq, hx, if_false]
    rw [q_size_loop_path hp.2 hn' fuel 0 (by simp at hf ⊢; omega)]
    simp

theorem q_size_queue {h : Heap} {head : Ptr} {xs : List Nat} (hq : Queue h head xs)
    (fuel : Nat) (hf : xs.length < fuel) : q_size fuel h head = some xs.length := by
  cases head with
  | none => simp [Queue] at hq; simp [q_size, hq]
  | some hd => exact q_size_ring hq fuel hf

theorem Path_head? {f : Nat → Ptr} {a : Nat} {xs : List Nat} (hp : Path f a xs none) :
    f a = xs.head? := by
  cases xs with
  | nil => simpa [Path] using hp
  | cons x xs => simpa using hp.1

theorem NullChain_tail {h : Heap} {a : Nat} {xs : List Nat} (hc : NullChain h (a :: xs)) :
    NullChain h xs := by
  cases xs with
  | nil => trivial
  | cons x xs => exact ⟨hc.1.2, hc.2.2⟩

theorem NullChain_congr {h g : Heap} {l : List Nat}
    (hn : ∀ x ∈ l, h.next x = g.next x) (hp : ∀ x ∈ l, h.prev x = g.prev x)
    (hc : NullChain h l) : NullChain g l := by
  cases l with
  | nil => trivial
  | cons a xs =>
    exact ⟨Path_congr hn hc.1, Back_congr (fun x hx => hp x (List.mem_cons_of_mem _ hx)) hc.2⟩

theorem merge_loop_spec (fuel : Nat) : ∀ (h : Heap) (l1 l2 : List Nat) (t : Nat),
    (t :: (l1 ++ l2)).Nodup → NullChain h l1 → NullChain h l2 → (l1 ≠ [] ∨ l2 ≠ []) →
    l1.length + l2.length < fuel →
    ∃ g, (merge_loop fuel h l1.head? l2.head? t).bind merge_finish = some g ∧
      Path g.next t (List.merge l1 l2 (str_le h.value)) none ∧
      Back g.prev t (List.merge l1 l2 (str_le h.value)) ∧
      (∀ x, x ∉ t :: (l1 ++ l2) → g.next x = h.next x) ∧
      (∀ x, x ∉ l1 ++ l2 → g.prev x = h.prev x) ∧
      g.value = h.value ∧ g.live = h.live := by
  induction fuel with
  | zero => intro h l1 l2 t _ _ _ _ hf; omega
  | succ fuel ih =>
    intro h l1 l2 t hnd hc1 hc2 hne hf
    cases l1 with
    | nil =>
      cases l2 with
      | nil => simp at hne
      | cons b ys =>
        have htb : t ≠ b := by rintro rfl; simp at hnd
        have hbt : b ≠ t := fun e => htb e.symm
        have hnd2 : (t :: b :: ys).Nodup := by simpa using hnd
        have htys : t ∉ b :: ys := (List.nodup_cons.mp hnd2).1
        have hbys : b ∉ ys := (List.nodup_cons.mp (List.nodup_cons.mp hnd2).2).1
        refine ⟨(h.setPrev b (some t)).setNext t (some b), ?_, ?_, ?_, ?_, ?_, rfl, rfl⟩
        · simp [merge_loop, merge_finish]
        · simp only [List.nil_merge, Path, setNext_next, setPrev_next, Function.update_same,
            true_and]
          exact Path_update htys hc2.1
        · simp only [List.nil_merge, Back, setNext_prev, setPrev_prev, Function.update_same,
            true_and]
          exact Back_update hbys hc2.2
        · intro x hx
          have : x ≠ t := fun e => hx (by simp [e])
          simp [Function.update_noteq this]
        · intro x hx
          have : x ≠ b := fun e => hx (by simp [e])
          simp [Function.update_noteq this]
    | cons a xs =>
      cases l2 with
      | nil =>
        have hnd2 : (t :: a :: xs).Nodup := by simpa using hnd
        have htxs : t ∉ a :: xs := (List.nodup_cons.mp hnd2).1
        have haxs : a ∉ xs := (List.nodup_cons.mp (List.nodup_cons.mp hnd2).2).1
        refine ⟨(h.setPrev a (some t)).setNext t (some a), ?_, ?_, ?_, ?_, ?_, rfl, rfl⟩
        · simp [merge_loop, merge_finish]
        · simp only [List.merge_right, Path, setNext_next, setPrev_next, Function.update_same,
            true_and]
          exact Path_update htxs hc1.1
        · simp only [List.merge_right, Back, setNext_prev, setPrev_prev, Function.update_same,
            true_and]
          exact Back_update haxs hc1.2
        · intro x hx
          have : x ≠ t := fun e => hx (by simp [e])
          simp [Function.update_noteq this]
        · intro x hx
          have : x ≠ a := fun e => hx (by simp [e])
          simp [Function.update_noteq this]
      | cons b ys =>
        have hF : t ≠ a ∧ t ≠ b ∧ a ≠ b ∧ t ∉ xs ∧ t ∉ ys ∧ a ∉ xs ∧ a ∉ ys ∧ b ∉ xs ∧ b ∉ ys := by
          simp [List.nodup_append] at hnd; aesop
        obtain ⟨hta, htb, hab, htxs, htys, haxs, hays, hbxs, hbys⟩ := hF
        have hnd3 : (a :: (xs ++ b :: ys)).Nodup := (List.nodup_cons.mp hnd).2
        have hnd4 : (b :: ((a :: xs) ++ ys)).Nodup :=
          (List.perm_middle.symm : (b :: (a :: xs ++ ys)).Perm (a :: xs ++ b :: ys)).nodup_iff.mpr
            hnd3
        by_cases hle : strcmp (h.value a) (h.value b) ≤ 0
        · -- the head of `list1` is appended
          let h1 := (h.setPrev a (some t)).setNext t (some a)
          have hnext_a : h1.next a = xs.head? := by
            simp only [h1, setNext_next, setPrev_next, Function.update_noteq hta.symm]
            exact Path_head? hc1.1
          have hc1t : NullChain h1 xs :=
            NullChain_congr (h := h)
              (fun x hx => by
                have : x ≠ t := by rintro rfl; exact htxs hx
                simp [h1, Function.update_noteq this])
              (fun x hx => by
                have : x ≠ a := by rintro rfl; exact haxs hx
                simp [h1, Function.update_noteq this])
              (NullChain_tail hc1)
          have hc2t : NullChain h1 (b :: ys) :=
            NullChain_congr (h := h)
              (fun x hx => by
                have : x ≠ t := by rintro rfl; simp at hx; tauto
                simp [h1, Function.update_noteq this])
              (fun x hx => by
                have : x ≠ a := by rintro rfl; simp at hx; tauto
                simp [h1, Function.update_noteq this])
              hc2
          obtain ⟨g, hg, hpn, hpb, hfn, hfp, hv, hl⟩ :=
            ih h1 xs (b :: ys) a hnd3 hc1t hc2t (Or.inr (by simp)) (by simp at hf ⊢; omega)
          have hm : List.merge (a :: xs) (b :: ys) (str_le h.value)
              = a :: List.merge xs (b :: ys) (str_le h.value) := by
            rw [List.cons_merge_cons]; simp [str_le, hle]
          rw [hm]
          refine ⟨g, ?_, ?_, ?_, ?_, ?_, hv, hl⟩
          · rw [← hg, ← hnext_a]
            simp [merge_loop, hle, h1]
          · refine ⟨?_, hpn⟩
            rw [hfn t (by simp; tauto)]
            simp [h1]
          · refine ⟨?_, hpb⟩
            rw [hfp a (by simp; tauto)]
            simp [h1]
          · intro x hx
            simp only [List.mem_cons, List.mem_append, not_or] at hx
            rw [hfn x (by simp; tauto)]
            simp [h1, Function.update_noteq hx.1]
          · intro x hx
            simp only [List.mem_cons, List.mem_append, not_or] at hx
            rw [hfp x (by simp; tauto)]
            simp [h1, Function.update_noteq hx.1.1]
        · -- the head of `list2` is appended
          let h1 := (h.setPrev b (some t)).setNext t (some b)
          have hnext_b : h1.next b = ys.head? := by
            simp only [h1, setNext_next, setPrev_next, Function.update_noteq htb.symm]
            exact Path_head? hc2.1
          have hc2t : NullChain h1 ys :=
            NullChain_congr (h := h)
              (fun x hx => by
                have : x ≠ t := by rintro rfl; exact htys hx
                simp [h1, Function.update_noteq this])
              (fun x hx => by
                have : x ≠ b := by rintro rfl; exact hbys hx
                simp [h1, Function.update_noteq this])
              (NullChain_tail hc2)
          have hc1t : NullChain h1 (a :: xs) :=
            NullChain_congr (h := h)
              (fun x hx => by
                have : x ≠ t := by rintro rfl; simp at hx; tauto
                simp [h1, Function.update_noteq this])
              (fun x hx => by
                have : x ≠ b := by rintro rfl; simp at hx; tauto
                simp [h1, Function.update_noteq this])
              hc1
          obtain ⟨g, hg, hpn, hpb, hfn, hfp, hv, hl⟩ :=
            ih h1 (a :: xs) ys b hnd4 hc1t hc2t (Or.inl (by simp)) (by simp at hf ⊢; omega)
          have hm : List.merge (a :: xs) (b :: ys) (str_le h.value)
              = b :: List.merge (a :: xs) ys (str_le h.value) := by
            rw [List.cons_merge_cons]; simp [str_le, hle]
          rw [hm]
          refine ⟨g, ?_, ?_, ?_, ?_, ?_, hv, hl⟩
          · rw [← hg, ← hnext_b]
            simp [merge_loop, hle, h1]
          · refine ⟨?_, hpn⟩
            rw [hfn t (by simp; tauto)]
            simp [h1]
          · refine ⟨?_, hpb⟩
            rw [hfp b (by simp; tauto)]
            simp [h1]
          · intro x hx
            simp only [List.mem_cons, List.mem_append, not_or] at hx
            rw [hfn x (by simp; tauto)]
            simp [h1, Function.update_noteq hx.1]
          · intro x hx
            simp only [List.mem_cons, List.mem_append, not_or] at hx
            rw [hfp x (by simp; tauto)]
            simp [h1, Function.update_noteq hx.2.1]

theorem NullChain_nil (h : Heap) : NullChain h [] := trivial

theorem merge_spec (fuel : Nat) (h : Heap) (l1 l2 : List Nat)
    (hnd : (l1 ++ l2).Nodup) (hc1 : NullChain h l1) (hc2 : NullChain h l2)
    (hf : l1.length + l2.length ≤ fuel) :
    ∃ g, merge fuel h l1.head? l2.head?
        = some (g, (List.merge l1 l2 (str_le h.value)).head?) ∧
      NullChain g (List.merge l1 l2 (str_le h.value)) ∧
      (∀ x, x ∉ l1 ++ l2 → g.next x = h.next x) ∧
      (∀ x, x ∉ l1 ++ l2 → g.prev x = h.prev x) ∧
      g.value = h.value ∧ g.live = h.live := by
  cases l1 with
  | nil =>
    refine ⟨h, ?_, by simpa using hc2, fun _ _ => rfl, fun _ _ => rfl, rfl, rfl⟩
    cases l2 <;> simp [merge]
  | cons a xs =>
    cases l2 with
    | nil =>
      refine ⟨h, ?_, by simpa using hc1, fun _ _ => rfl, fun _ _ => rfl, rfl, rfl⟩
      simp [merge]
    | cons b ys =>
      have hnd4 : (b :: ((a :: xs) ++ ys)).Nodup :=
        (List.perm_middle.symm : (b :: (a :: xs ++ ys)).Perm (a :: xs ++ b :: ys)).nodup_iff.mpr
          hnd
      have hF : a ∉ ys ∧ b ∉ xs ∧ a ≠ b := by
        simp [List.nodup_append] at hnd; aesop
      by_cases hle : strcmp (h.value a) (h.value b) ≤ 0
      · obtain ⟨g, hg, hpn, hpb, hfn, hfp, hv, hl⟩ :=
          merge_loop_spec fuel h xs (b :: ys) a hnd (NullChain_tail hc1) hc2 (Or.inr (by simp))
            (by simp at hf ⊢; omega)
        have hm : List.merge (a :: xs) (b :: ys) (str_le h.value)
            = a :: List.merge xs (b :: ys) (str_le h.value) := by
          rw [List.cons_merge_cons]; simp [str_le, hle]
        rw [hm]
        refine ⟨g, ?_, ⟨hpn, hpb⟩, fun x hx => hfn x (by simpa using hx), fun x hx => hfp x ?_,
          hv, hl⟩
        · simp only [List.head?_cons] at hg
          simp only [merge, List.head?_cons, hle, if_true, Path_head? hc1.1]
          show Option.map _ ((merge_loop fuel h xs.head? (some b) a).bind merge_finish) = _
          rw [hg]; rfl
        · simp at hx ⊢; tauto
      · obtain ⟨g, hg, hpn, hpb, hfn, hfp, hv, hl⟩ :=
          merge_loop_spec fuel h (a :: xs) ys b hnd4 hc1 (NullChain_tail hc2) (Or.inl (by simp))
            (by simp at hf ⊢; omega)
        have hm : List.merge (a :: xs) (b :: ys) (str_le h.value)
            = b :: List.merge (a :: xs) ys (str_le h.value) := by
          rw [List.cons_merge_cons]; simp [str_le, hle]
        rw [hm]
        refine ⟨g, ?_, ⟨hpn, hpb⟩, fun x hx => hfn x ?_, fun x hx => hfp x ?_, hv, hl⟩
        · simp only [List.head?_cons] at hg
          simp only [merge, List.head?_cons, hle, if_false, Path_head? hc2.1]
          show Option.map _ ((merge_loop fuel h (some a) ys.head? b).bind merge_finish) = _
          rw [hg]; rfl
        · simp at hx ⊢; tauto
        · simp at hx ⊢; tauto

/-- On a `NULL`-terminated path the successor of the node at index `i` is the
node at index `i + 1`, `NULL` after the last one. -/
theorem Path_null_getElem {f : Nat → Ptr} {a : Nat} {xs : List Nat}
    (hp : Path f a xs none) (i : Nat) (x : Nat) (hi : (a :: xs)[i]? = some x) :
    f x = (a :: xs)[i + 1]? := by
  induction xs generalizing a i with
  | nil =>
    cases i with
    | zero => simp at hi; subst hi; simpa [Path] using hp
    | succ i => simp at hi
  | cons y ys ih =>
    cases i with
    | zero => simp at hi; subst hi; simpa using hp.1
    | succ i =>
      have := ih hp.2 i (by simpa using hi)
      simpa using this

theorem merge_sort_split_spec {h : Heap} {a : Nat} {xs : List Nat}
    (hp : Path h.next a xs none) (fuel : Nat) : ∀ i : Nat,
    2 * i + 1 ≤ (a :: xs).length → (a :: xs).length ≤ fuel + i →
    merge_sort_split h fuel (a :: xs)[i]? (a :: xs)[2 * i + 1]?
      = some (a :: xs)[((a :: xs).length - 1) / 2]? := by
  induction fuel with
  | zero => intro i h1 h2; omega
  | succ fuel ih =>
    intro i h1 h2
    rcases hq : (a :: xs)[2 * i + 1]? with _ | f
    · have hlen : (a :: xs).length ≤ 2 * i + 1 := List.getElem?_eq_none_iff.mp hq
      have : ((a :: xs).length - 1) / 2 = i := by omega
      simp only [merge_sort_split, this]
    · have hfn := Path_null_getElem hp _ _ hq
      rcases hq2 : (a :: xs)[2 * i + 1 + 1]? with _ | fn
      · have hlen : (a :: xs).length ≤ 2 * i + 1 + 1 := List.getElem?_eq_none_iff.mp hq2
        have hlt : 2 * i + 1 < (a :: xs).length := by
          by_contra hc
          rw [List.getElem?_eq_none_iff.mpr (by omega)] at hq
          exact absurd hq (by simp)
        have : ((a :: xs).length - 1) / 2 = i := by omega
        rw [hq2] at hfn
        simp only [merge_sort_split, hfn, this]
      · have hlt : 2 * i + 1 + 1 < (a :: xs).length := by
          by_contra hc
          rw [List.getElem?_eq_none_iff.mpr (by omega)] at hq2
          exact absurd hq2 (by simp)
        obtain ⟨s, hs⟩ : ∃ s, (a :: xs)[i]? = some s :=
          ⟨(a :: xs)[i], List.getElem?_eq_getElem (by omega)⟩
        rw [hq2] at hfn
        have hsn := Path_null_getElem hp _ _ hs
        have hfnn := Path_null_getElem hp _ _ hq2
        have := ih (i + 1) (by omega) (by omega)
        simp only [merge_sort_split, hfn, hs, Option.bind_eq_bind, Option.some_bind, hsn, hfnn]
        rw [← this]
        congr 2

theorem exists_split_half (xs : List Nat) (hne : xs ≠ []) :
    ∃ P t S, xs = P ++ t :: S ∧ P.length = xs.length / 2 := by
  have hlt : xs.length / 2 < xs.length := by
    have : 0 < xs.length := List.length_pos.mpr hne
    omega
  refine ⟨xs.take (xs.length / 2), xs[xs.length / 2], xs.drop (xs.length / 2 + 1), ?_, ?_⟩
  · rw [List.getElem_cons_drop, List.take_append_drop]
  · simp; omega

theorem mergeSort_halves (le : Nat → Nat → Bool) (a : Nat) (P : List Nat) (t : Nat)
    (S : List Nat) (hk : P.length = (P.length + S.length + 1) / 2) :
    (a :: (P ++ t :: S)).mergeSort le
      = List.merge ((a :: P).mergeSort le) ((t :: S).mergeSort le) le := by
  have hshape : ∃ b r, P ++ t :: S = b :: r := by
    cases P with
    | nil => exact ⟨t, S, rfl⟩
    | cons p P => exact ⟨p, P ++ t :: S, rfl⟩
  obtain ⟨b, r, hbr⟩ := hshape
  have hlen : r.length + 1 = P.length + S.length + 1 := by
    have := congrArg List.length hbr
    simp at this; omega
  rw [hbr, List.mergeSort]
  simp only [List.splitInTwo_fst, List.splitInTwo_snd, List.length_cons]
  have hk2 : (r.length + 1 + 1 + 1) / 2 = (a :: P).length := by simp; omega
  rw [← hbr, hk2]
  have e1 : (a :: (P ++ t :: S)).take (a :: P).length = a :: P := by
    rw [← List.cons_append, List.take_left]
  have e2 : (a :: (P ++ t :: S)).drop (a :: P).length = t :: S := by
    rw [← List.cons_append, List.drop_left]
  rw [e1, e2]

theorem Path_set_last {f : Nat → Ptr} {a : Nat} {P : List Nat} {e v : Ptr}
    (hp : Path f a P e) (hnd : (a :: P).Nodup) :
    Path (Function.update f ((a :: P).getLast (by simp)) v) a P v := by
  induction P generalizing a with
  | nil => simp [Path]
  | cons p P ih =>
    have hne : a ≠ (p :: P).getLast (by simp) := by
      intro e
      have := List.getLast_mem (l := p :: P) (by simp)
      rw [← e] at this
      exact (List.nodup_cons.mp hnd).1 this
    refine ⟨?_, ?_⟩
    · rw [List.getLast_cons (by simp), Function.update_noteq hne]; exact hp.1
    · rw [List.getLast_cons (by simp)]
      exact ih hp.2 (List.nodup_cons.mp hnd).2

theorem merge_sort_spec (fuel : Nat) : ∀ (h : Heap) (l : List Nat),
    l.Nodup → NullChain h l → l.length < fuel →
    ∃ g, merge_sort fuel h l.head? = some (g, (l.mergeSort (str_le h.value)).head?) ∧
      NullChain g (l.mergeSort (str_le h.value)) ∧
      (∀ x, x ∉ l → g.next x = h.next x) ∧
      (∀ x, x ∉ l → g.prev x = h.prev x) ∧
      g.value = h.value ∧ g.live = h.live := by
  induction fuel with
  | zero => intro h l _ _ hf; omega
  | succ fuel ih =>
    intro h l hnd hc hf
    cases l with
    | nil =>
      exact ⟨h, by simp [merge_sort], by simp [NullChain], fun _ _ => rfl, fun _ _ => rfl, rfl, rfl⟩
    | cons a xs =>
      by_cases hxs : xs = []
      · subst hxs
        have hna : h.next a = none := by simpa [NullChain, Path] using hc.1
        exact ⟨h, by simp [merge_sort, hna], by simpa using hc, fun _ _ => rfl, fun _ _ => rfl,
          rfl, rfl⟩
      · obtain ⟨P, t, S, rfl, hP⟩ := exists_split_half xs hxs
        have hk : P.length = (P.length + S.length + 1) / 2 := by
          simp at hP; omega
        have hlen : (a :: (P ++ t :: S)).length = P.length + S.length + 2 := by
          simp; omega
        -- the nodes
        have hF : t ∉ a :: P ∧ t ∉ S ∧ (∀ x ∈ a :: P, x ∉ t :: S) ∧ (a :: P).Nodup ∧
            (t :: S).Nodup := by
          have := hnd
          rw [← List.cons_append, List.nodup_append] at this
          obtain ⟨h1, h2, h3⟩ := this
          refine ⟨fun e => h3 e (by simp), (List.nodup_cons.mp h2).1, fun x hx => h3 hx, h1, h2⟩
        obtain ⟨htP, htS, hdisj, hndP, hndS⟩ := hF
        have hs_mem : (a :: P).getLast (by simp) ∈ a :: P := List.getLast_mem _
        have hsS : (a :: P).getLast (by simp) ∉ t :: S := hdisj _ hs_mem
        -- the links
        obtain ⟨hpn, hpb⟩ := hc
        have hpn2 := Path_append.mp hpn
        have hpb2 := Back_append.mp hpb
        have hnext_a : h.next a = (P ++ t :: S).head? := Path_head? hpn
        have hnext_ne : h.next a ≠ none := by
          rw [hnext_a]; cases P <;> simp
        -- the split
        have hsplit : merge_sort_split h fuel (some a) (h.next a)
            = some (some ((a :: P).getLast (by simp))) := by
          have h0 := merge_sort_split_spec hpn fuel 0 (by simp) (by omega)
          have e1 : (a :: (P ++ t :: S))[0]? = some a := by simp
          have e2 : (a :: (P ++ t :: S))[2 * 0 + 1]? = h.next a :=
            (Path_null_getElem hpn 0 a (by simp)).symm
          have e3 : (a :: (P ++ t :: S))[((a :: (P ++ t :: S)).length - 1) / 2]?
              = some ((a :: P).getLast (by simp)) := by
            have : ((a :: (P ++ t :: S)).length - 1) / 2 = P.length := by
              rw [hlen]; omega
            rw [this, ← List.cons_append, List.getElem?_append_left (by simp),
              List.getLast_eq_getElem]
            simp
          rw [e1, e2, e3] at h0
          exact h0
        have hnext_s : h.next ((a :: P).getLast (by simp)) = some t := by
          have e : (a :: (P ++ t :: S))[P.length]? = some ((a :: P).getLast (by simp)) := by
            rw [← List.cons_append, List.getElem?_append_left (by simp),
              List.getLast_eq_getElem]
            simp
          rw [Path_null_getElem hpn _ _ e, ← List.cons_append,
            List.getElem?_append_right (by simp)]
          simp
        -- the two halves, cut
        let h1 := (h.setPrev t none).setNext ((a :: P).getLast (by simp)) none
        have hcL : NullChain h1 (a :: P) :=
          ⟨Path_set_last hpn2.1 hndP, Back_update (fun e => htP (List.mem_cons_of_mem _ e)) hpb2.1⟩
        have hcR : NullChain h1 (t :: S) :=
          ⟨Path_update hsS hpn2.2, Back_update htS hpb2.2.2⟩
        obtain ⟨g1, hg1, hc1, hn1, hp1, hv1, hl1⟩ := ih h1 (a :: P) hndP hcL (by
          simp at hf ⊢; omega)
        have hcR1 : NullChain g1 (t :: S) :=
          NullChain_congr (fun x hx => (hn1 x (fun e => hdisj x e hx)).symm)
            (fun x hx => (hp1 x (fun e => hdisj x e hx)).symm) hcR
        obtain ⟨g2, hg2, hc2, hn2, hp2, hv2, hl2⟩ := ih g1 (t :: S) hndS hcR1 (by
          simp at hf ⊢; omega)
        have hval1 : g1.value = h.value := hv1
        rw [hval1] at hg2 hc2
        have hval2 : g2.value = h.value := hv2.trans hv1
        simp only [show h1.value = h.value from rfl] at hg1 hc1
        have hc1b : NullChain g2 ((a :: P).mergeSort (str_le h.value)) :=
          NullChain_congr
            (fun x hx => (hn2 x (hdisj x (List.mem_mergeSort.mp hx))).symm)
            (fun x hx => (hp2 x (hdisj x (List.mem_mergeSort.mp hx))).symm) hc1
        have hndM : ((a :: P).mergeSort (str_le h.value)
            ++ (t :: S).mergeSort (str_le h.value)).Nodup := by
          have hperm : ((a :: P).mergeSort (str_le h.value)
              ++ (t :: S).mergeSort (str_le h.value)).Perm (a :: (P ++ t :: S)) := by
            rw [← List.cons_append]
            exact (List.mergeSort_perm _ _).append (List.mergeSort_perm _ _)
          exact hperm.nodup_iff.mpr hnd
        obtain ⟨g3, hg3, hc3, hn3, hp3, hv3, hl3⟩ :=
          merge_spec fuel g2 _ _ hndM hc1b hc2 (by
            simp only [List.length_mergeSort]; simp at hf ⊢; omega)
        rw [hval2] at hg3 hc3
        rw [mergeSort_halves _ a P t S hk]
        refine ⟨g3, ?_, hc3, ?_, ?_, hv3.trans hval2, hl3.trans (hl2.trans hl1)⟩
        · simp only [List.head?_cons] at hg1 hg2
          simp only [merge_sort, List.head?_cons, hnext_ne, if_false, hsplit,
            Option.bind_eq_bind, Option.some_bind, hnext_s]
          show (merge_sort fuel h1 (some a)).bind _ = _
          rw [hg1]
          simp only [Option.some_bind, hg2, hg3]
        · intro x hx
          have hxP : x ∉ a :: P := fun e => hx (by
            rw [← List.cons_append]; exact List.mem_append_left _ e)
          have hxS : x ∉ t :: S := fun e => hx (by
            rw [← List.cons_append]; exact List.mem_append_right _ e)
          have hxs : x ≠ (a :: P).getLast (by simp) := fun e => hxP (e ▸ hs_mem)
          rw [hn3 x (by simp only [List.mem_append, List.mem_mergeSort]; tauto), hn2 x hxS,
            hn1 x hxP]
          simp [h1, Function.update_noteq hxs]
        · intro x hx
          have hxP : x ∉ a :: P := fun e => hx (by
            rw [← List.cons_append]; exact List.mem_append_left _ e)
          have hxS : x ∉ t :: S := fun e => hx (by
            rw [← List.cons_append]; exact List.mem_append_right _ e)
          have hxt : x ≠ t := fun e => hxS (by simp [e])
          rw [hp3 x (by simp only [List.mem_append, List.mem_mergeSort]; tauto), hp2 x hxS,
            hp1 x hxP]
          simp [h1, Function.update_noteq hxt]

theorem strcmp_nil_le (c : Str) : strcmp [] c ≤ 0 := by
  cases c with
  | nil => simp [strcmp]
  | cons z cs => simp [strcmp]

theorem strcmp_trans : ∀ (a b c : Str), strcmp a b ≤ 0 → strcmp b c ≤ 0 → strcmp a c ≤ 0
  | [], _, c, _, _ => strcmp_nil_le c
  | x :: as, [], c, hab, _ => by
    have hx : x = 0 := by simpa [strcmp] using hab
    subst hx
    cases c with
    | nil => simp [strcmp]
    | cons z cs =>
      by_cases hz : 0 = z
      · simp [strcmp, hz.symm]
      · simp [strcmp, hz]
  | x :: as, y :: bs, [], hab, hbc => by
    have hy : y = 0 := by simpa [strcmp] using hbc
    subst hy
    have hx : x = 0 := by
      by_contra hx
      simp only [strcmp, hx, if_false] at hab
      omega
    simp [strcmp, hx]
  | x :: as, y :: bs, z :: cs, hab, hbc => by
    have ih := strcmp_trans as bs cs
    simp only [strcmp] at hab hbc ⊢
    split_ifs at hab hbc ⊢ <;> omega

theorem strcmp_total : ∀ (a b : Str), strcmp a b ≤ 0 ∨ strcmp b a ≤ 0
  | [], b => Or.inl (strcmp_nil_le b)
  | _ :: _, [] => Or.inr (strcmp_nil_le _)
  | x :: as, y :: bs => by
    have ih := strcmp_total as bs
    simp only [strcmp]
    split_ifs <;> omega

theorem str_le_trans (v : Nat → Str) (a b c : Nat) :
    str_le v a b = true → str_le v b c = true → str_le v a c = true := by
  simp only [str_le, decide_eq_true_eq]
  exact strcmp_trans _ _ _

theorem str_le_total (v : Nat → Str) (a b : Nat) : (str_le v a b || str_le v b a) = true := by
  simp only [str_le, Bool.or_eq_true, decide_eq_true_eq]
  exact strcmp_total _ _

theorem q_sort_last_spec {h : Heap} {p : Nat} {xs : List Nat} (hp : Path h.next p xs none)
    (fuel : Nat) (hf : xs.length < fuel) :
    q_sort_last h fuel p = some ((p :: xs).getLast (by simp)) := by
  induction xs generalizing p fuel with
  | nil =>
    obtain ⟨fuel, rfl⟩ : ∃ k, fuel = k + 1 := ⟨fuel - 1, by simp at hf; omega⟩
    simp only [Path] at hp
    simp [q_sort_last, hp]
  | cons x xs ih =>
    obtain ⟨fuel, rfl⟩ : ∃ k, fuel = k + 1 := ⟨fuel - 1, by simp at hf; omega⟩
    simp only [q_sort_last, hp.1]
    rw [ih hp.2 fuel (by simp at hf; omega)]
    simp [List.getLast_cons]

theorem Ring_prev_head {h : Heap} {head : Nat} {xs : List Nat} (hr : Ring h head xs) :
    h.prev head = some ((head :: xs).getLast (by simp)) := by
  have := (Back_append.mp hr.2.2).2
  simpa [Back] using this

theorem Ring_next_head {h : Heap} {head : Nat} {xs : List Nat} (hr : Ring h head xs) :
    h.next head = (xs ++ [head]).head? := by
  cases xs with
  | nil => simpa [Path] using hr.2.1
  | cons x xs => simpa using hr.2.1.1

theorem q_sort_ring (fuel : Nat) (h : Heap) (head : Nat) (xs : List Nat)
    (hr : Ring h head xs) (hlen2 : 2 ≤ xs.length) (hf : xs.length < fuel) :
    ∃ g, q_sort fuel h (some head) = some g ∧
      Ring g head (xs.mergeSort (str_le h.value)) ∧
      (∀ x, x ∉ head :: xs → g.next x = h.next x) ∧
      (∀ x, x ∉ head :: xs → g.prev x = h.prev x) ∧
      g.value = h.value ∧ g.live = h.live := by
  obtain ⟨x0, rest, rfl⟩ : ∃ x0 rest, xs = x0 :: rest := by
    cases xs with
    | nil => simp at hlen2
    | cons a l => exact ⟨a, l, rfl⟩
  have hsize := q_size_ring hr fuel hf
  obtain ⟨hnd, hpn, hpb⟩ := hr
  have hprev_head := Ring_prev_head ⟨hnd, hpn, hpb⟩
  have hF : head ∉ x0 :: rest ∧ (x0 :: rest).Nodup ∧ x0 ∉ rest ∧ head ≠ x0 ∧ head ∉ rest := by
    simp at hnd ⊢; tauto
  obtain ⟨hhd, hndx, hx0, hhx0, hhrest⟩ := hF
  have hlast_mem : (x0 :: rest).getLast (by simp) ∈ x0 :: rest := List.getLast_mem _
  have hlast_ne : (x0 :: rest).getLast (by simp) ≠ head := fun e => hhd (e ▸ hlast_mem)
  have hlast_eq : (head :: x0 :: rest).getLast (by simp) = (x0 :: rest).getLast (by simp) :=
    List.getLast_cons (by simp)
  rw [hlast_eq] at hprev_head
  -- the ring, opened
  let h1 := (((h.setNext ((x0 :: rest).getLast (by simp)) none).setPrev x0 none).setPrev head
    none).setNext head none
  have hpb2 := (Back_append.mp hpb).1
  have hc1 : NullChain h1 (x0 :: rest) := by
    refine ⟨?_, ?_⟩
    · exact Path_update hhd (Path_set_last hpn.2 hndx)
    · exact Back_update hhrest (Back_update hx0 hpb2.2)
  obtain ⟨g, hg, hcg, hng, hpg, hvg, hlg⟩ :=
    merge_sort_spec fuel h1 (x0 :: rest) hndx hc1 hf
  simp only [show h1.value = h.value from rfl] at hg hcg
  -- the sorted list
  have hperm : ((x0 :: rest).mergeSort (str_le h.value)).Perm (x0 :: rest) :=
    List.mergeSort_perm _ _
  obtain ⟨y0, ys, hys⟩ : ∃ y0 ys, (x0 :: rest).mergeSort (str_le h.value) = y0 :: ys := by
    cases hm : (x0 :: rest).mergeSort (str_le h.value) with
    | nil => have := hperm.length_eq; rw [hm] at this; simp at this
    | cons a l => exact ⟨a, l, rfl⟩
  rw [hys] at hg hcg hperm ⊢
  have hndy : (head :: y0 :: ys).Nodup := by
    refine List.nodup_cons.mpr ⟨fun e => hhd (hperm.mem_iff.mp e), hperm.nodup_iff.mpr hndx⟩
  have hG : head ∉ y0 :: ys ∧ y0 ∉ ys ∧ head ≠ y0 ∧ head ∉ ys := by
    simp at hndy ⊢; tauto
  obtain ⟨hhy, hy0, hhy0, hhys⟩ := hG
  let h2 := (g.setNext head (some y0)).setPrev y0 (some head)
  have hp2 : Path h2.next head (y0 :: ys) none := by
    refine ⟨by simp [h2], ?_⟩
    exact Path_update hhy hcg.1
  have hlen : ys.length + 1 < fuel := by
    have := hperm.length_eq
    simp only [List.length_cons] at this hf
    omega
  have hlast := q_sort_last_spec hp2 fuel hlen
  let l := (head :: y0 :: ys).getLast (by simp)
  refine ⟨(h2.setPrev head (some l)).setNext l (some head), ?_, ⟨hndy, ?_, ?_⟩, ?_, ?_, ?_, ?_⟩
  · have hne : ¬ (x0 :: rest).length ≤ 1 := by simp only [List.length_cons] at hlen2 ⊢; omega
    have hfirst : Function.update h.next ((x0 :: rest).getLast (by simp)) none head = some x0 := by
      rw [Function.update_noteq (fun e => hlast_ne e.symm)]; exact hpn.1
    simp only [q_sort, hsize, Option.bind_eq_bind, Option.some_bind, hne, if_false, hprev_head,
      setNext_next, hfirst, hpn.1]
    show (merge_sort fuel h1 (some x0)).bind _ = _
    simp only [List.head?_cons] at hg
    rw [hg]
    simp only [Option.some_bind]
    show (q_sort_last h2 fuel head).bind _ = _
    rw [hlast]
    rfl
  · exact Path_set_last hp2 hndy
  · rw [Back_append]
    refine ⟨⟨?_, ?_⟩, ?_⟩
    · simp [h2, Function.update_noteq (fun e => hhy0 e.symm)]
    · exact Back_update hhys (Back_update hy0 hcg.2)
    · simp [Back, l]
  · intro x hx
    have hx1 : x ∉ x0 :: rest := fun e => hx (List.mem_cons_of_mem _ e)
    have hxh : x ≠ head := fun e => hx (by simp [e])
    have hxl : x ≠ l := by
      intro e
      have : l ∈ head :: y0 :: ys := List.getLast_mem _
      rw [← e] at this
      rcases List.mem_cons.mp this with e1 | e1
      · exact hxh e1
      · exact hx1 (hperm.mem_iff.mp e1)
    have hxlast : x ≠ (x0 :: rest).getLast (by simp) := fun e => hx1 (e ▸ hlast_mem)
    simp only [setNext_next, setPrev_next, Function.update_noteq hxl, h2,
      Function.update_noteq hxh]
    rw [hng x hx1]
    simp [h1, Function.update_noteq hxh, Function.update_noteq hxlast]
  · intro x hx
    have hx1 : x ∉ x0 :: rest := fun e => hx (List.mem_cons_of_mem _ e)
    have hxh : x ≠ head := fun e => hx (by simp [e])
    have hxy0 : x ≠ y0 := fun e => hx1 (hperm.mem_iff.mp (by simp [e]))
    have hxx0 : x ≠ x0 := fun e => hx1 (by simp [e])
    simp only [setNext_prev, setPrev_prev, h2, Function.update_noteq hxh,
      Function.update_noteq hxy0]
    rw [hpg x hx1]
    simp [h1, Function.update_noteq hxh, Function.update_noteq hxx0]
  · exact hvg
  · exact hlg

theorem Ring_unique {h : Heap} {head : Nat} {xs ys : List Nat} (hx : Ring h head xs)
    (hy : Ring h head ys) : xs = ys :=
  Path_unique hx.2.1 hy.2.1 (List.nodup_cons.mp hx.1).1 (List.nodup_cons.mp hy.1).1

theorem traverse_from_path {h : Heap} {head c : Nat} {xs : List Nat}
    (hp : Path h.next c xs (some head)) (hn : head ∉ c :: xs) (fuel : Nat)
    (hf : xs.length + 2 ≤ fuel) :
    traverse_from h head fuel (some c) = some (c :: xs) := by
  induction xs generalizing c fuel with
  | nil =>
    obtain ⟨fuel, rfl⟩ : ∃ k, fuel = k + 2 := ⟨fuel - 2, by simp at hf; omega⟩
    have hc : c ≠ head := fun e => hn (by simp [e])
    simp only [Path] at hp
    simp [traverse_from, hc, hp]
  | cons x xs ih =>
    obtain ⟨fuel, rfl⟩ : ∃ k, fuel = k + 1 := ⟨fuel - 1, by simp at hf; omega⟩
    have hc : c ≠ head := fun e => hn (by simp [e])
    have hn2 : head ∉ x :: xs := fun e => hn (List.mem_cons_of_mem _ e)
    simp only [traverse_from, Option.some.injEq, hc, if_false, hp.1]
    rw [ih hp.2 hn2 fuel (by simp at hf ⊢; omega)]
    rfl

/-- The traversal of a ring returns its element nodes. -/
theorem traverse_ring {h : Heap} {head : Nat} {xs : List Nat} (hr : Ring h head xs)
    (fuel : Nat) (hf : xs.length < fuel) : traverse fuel h head = some xs := by
  obtain ⟨hnd, hp, -⟩ := hr
  cases xs with
  | nil =>
    obtain ⟨fuel, rfl⟩ : ∃ k, fuel = k + 1 := ⟨fuel - 1, by simp at hf; omega⟩
    simp only [Path] at hp
    simp [traverse, traverse_from, hp]
  | cons x xs =>
    have hn2 : head ∉ x :: xs := (List.nodup_cons.mp hnd).1
    simp only [traverse, hp.1]
    exact traverse_from_path hp.2 hn2 fuel (by simp at hf ⊢; omega)

theorem q_sort_queue (fuel : Nat) (h : Heap) (head : Ptr) (xs : List Nat)
    (hq : Queue h head xs) (hf : xs.length < fuel) :
    ∃ g, q_sort fuel h head = some g ∧
      Queue g head (xs.mergeSort (str_le h.value)) ∧
      g.value = h.value ∧ g.live = h.live ∧ (xs.length ≤ 1 → g = h) := by
  by_cases hlen : xs.length ≤ 1
  · have hsize := q_size_queue hq fuel hf
    have hsort : xs.mergeSort (str_le h.value) = xs := by
      match xs, hlen with
      | [], _ => simp
      | [a], _ => simp
    refine ⟨h, ?_, by rw [hsort]; exact hq, rfl, rfl, fun _ => rfl⟩
    simp [q_sort, hsize, hlen]
  · cases head with
    | none => simp [Queue] at hq; simp [hq] at hlen
    | some hd =>
      obtain ⟨g, hg, hr, -, -, hv, hl⟩ := q_sort_ring fuel h hd xs hq (by omega) hf
      exact ⟨g, hg, hr, hv, hl, fun hc => absurd hc hlen⟩

/-- C2: `q_sort` is stable.  Whenever the node `a` comes before the node `b`
in the queue (`[a, b]` is a sublist of the traversal `xs`) and their strings
compare equal, `a` still comes before `b` in the traversal `ys` of the sorted
queue. -/
theorem q_sort_stable (fuel : Nat) (h : Heap) (head : Ptr) (xs : List Nat)
    (hq : Queue h head xs) (hf : xs.length < fuel) :
    ∃ g ys, q_sort fuel h head = some g ∧ Queue g head ys ∧ g.value = h.value ∧
      ∀ a b, strcmp (h.value a) (h.value b) = 0 → [a, b].Sublist xs → [a, b].Sublist ys := by
  obtain ⟨g, hg, hqg, hv, -, -⟩ := q_sort_queue fuel h head xs hq hf
  refine ⟨g, xs.mergeSort (str_le h.value), hg, hqg, hv, fun a b hab hsub => ?_⟩
  exact List.pair_sublist_mergeSort (str_le_trans h.value) (str_le_total h.value)
    (by simp [str_le, hab]) hsub

/-- C2, on the queue "b", "a", "b", "a" at the nodes 1, 2, 3, 4: the sorted
queue is 2, 4, 1, 3, the two "a" and the two "b" each in their old order. -/
theorem q_sort_stable_witness :
    Queue twice_queue (some 0) [1, 2, 3, 4] ∧
    (∃ g ys, q_sort 5 twice_queue (some 0) = some g ∧ Queue g (some 0) ys ∧
      g.value = twice_queue.value ∧
      ∀ a b, strcmp (twice_queue.value a) (twice_queue.value b) = 0 →
        [a, b].Sublist [1, 2, 3, 4] → [a, b].Sublist ys) ∧
    (q_sort 5 twice_queue (some 0)).bind (fun g => traverse 5 g 0) = some [2, 4, 1, 3] :=
  ⟨by decide, q_sort_stable 5 twice_queue (some 0) [1, 2, 3, 4] (by decide) (by decide),
    by decide⟩

theorem Ring_nil_iff {h : Heap} {head : Nat} :
    Ring h head [] ↔ h.next head = some head ∧ h.prev head = some head := by
  simp [Ring, Path, Back]

theorem q_insert_head_spec (h : Heap) (head : Nat) (xs : List Nat) (s : Str) (new : Nat)
    (hr : Ring h head xs) (hnew : new ∉ head :: xs) :
    ∃ g, q_insert_head h (some head) s (some new) true = some (g, true) ∧
      Ring g head (new :: xs) ∧ g.value = Function.update h.value new s ∧
      g.live = Function.update h.live new true := by
  obtain ⟨hnd, hpn, hpb⟩ := hr
  have hF : new ≠ head ∧ new ∉ xs ∧ head ∉ xs := by
    simp at hnd hnew ⊢; tauto
  obtain ⟨hnh, hnxs, hhxs⟩ := hF
  have hnd2 : (head :: new :: xs).Nodup := by
    simp at hnd ⊢; tauto
  cases xs with
  | nil =>
    simp only [Path] at hpn
    refine ⟨_, by simp [q_insert_head, hpn]; rfl, ⟨hnd2, ?_, ?_⟩, ?_, ?_⟩
    · simp [Path, Function.update_noteq hnh]
    · simp [Back, Function.update_noteq hnh.symm]
    · simp
    · simp
  | cons x rest =>
    have hG : x ≠ new ∧ x ≠ head ∧ new ∉ rest ∧ head ∉ rest ∧ x ∉ rest := by
      simp at hnd hnew ⊢; tauto
    obtain ⟨hxn, hxh, hnr, hhr, hxr⟩ := hG
    refine ⟨_, by simp [q_insert_head, hpn.1]; rfl, ⟨hnd2, ?_, ?_⟩, ?_, ?_⟩
    · refine ⟨by simp, by simp [Function.update_noteq hnh], ?_⟩
      simp only [setPrev_next, setNext_next, setValue_next, setLive_next]
      exact Path_update (by simp; tauto) (Path_update (by simp; tauto) hpn.2)
    · refine ⟨by simp, by simp [Function.update_noteq hxn], ?_⟩
      simp only [setPrev_prev, setNext_prev, setValue_prev, setLive_prev]
      exact Back_update (by simp; tauto) (Back_update (by simp; tauto) hpb.2)
    · simp
    · simp

theorem q_insert_tail_spec (h : Heap) (head : Nat) (xs : List Nat) (s : Str) (new : Nat)
    (hr : Ring h head xs) (hnew : new ∉ head :: xs) :
    ∃ g, q_insert_tail h (some head) s (some new) true = some (g, true) ∧
      Ring g head (xs ++ [new]) ∧ g.value = Function.update h.value new s ∧
      g.live = Function.update h.live new true := by
  have hprev := Ring_prev_head hr
  obtain ⟨hnd, hpn, hpb⟩ := hr
  have hF : new ≠ head ∧ new ∉ xs ∧ head ∉ xs := by
    simp at hnd hnew ⊢; tauto
  obtain ⟨hnh, hnxs, hhxs⟩ := hF
  have hnd2 : (head :: (xs ++ [new])).Nodup := by
    have : (head :: (xs ++ [new])).Perm (new :: head :: xs) := by
      rw [← List.cons_append]
      exact List.perm_append_singleton _ _
    exact this.nodup_iff.mpr (List.nodup_cons.mpr ⟨hnew, hnd⟩)
  have hpb2 := Back_append.mp hpb
  refine ⟨_, by simp [q_insert_tail, hprev]; rfl, ⟨hnd2, ?_, ?_⟩, ?_, ?_⟩
  · rw [Path_append]
    refine ⟨?_, by simp [Path]⟩
    simp only [setPrev_next, setNext_next, setValue_next, setLive_next]
    exact Path_update hnew (Path_set_last hpn hnd)
  · rw [Back_append, Back_append]
    refine ⟨⟨?_, ?_⟩, ?_⟩
    · simp only [setPrev_prev, setNext_prev, setValue_prev, setLive_prev]
      exact Back_update hhxs (Back_update hnxs hpb2.1)
    · simp [Back, Function.update_noteq hnh]
    · simp [Back]
  · simp
  · simp

/-- C3: on an existing queue with traversal `xs`, when `malloc` returns a new
node `new` (one that is not in the queue) and `strdup` succeeds,
`q_insert_head` returns `true` and the traversal becomes `new :: xs`,
`q_insert_tail` returns `true` and the traversal becomes `xs ++ [new]`; in both
the node `new` holds the string `s`, every other string is as before, and
`new` is the only node newly allocated. -/
theorem q_insert_head_tail (h : Heap) (head : Nat) (xs : List Nat) (s : Str) (new : Nat)
    (hr : Queue h (some head) xs) (hnew : new ∉ head :: xs) :
    (∃ g, q_insert_head h (some head) s (some new) true = some (g, true) ∧
      Queue g (some head) (new :: xs) ∧ g.value new = s ∧
      (∀ x, x ≠ new → g.value x = h.value x) ∧ g.live new = true ∧
      (∀ x, x ≠ new → g.live x = h.live x)) ∧
    (∃ g, q_insert_tail h (some head) s (some new) true = some (g, true) ∧
      Queue g (some head) (xs ++ [new]) ∧ g.value new = s ∧
      (∀ x, x ≠ new → g.value x = h.value x) ∧ g.live new = true ∧
      (∀ x, x ≠ new → g.live x = h.live x)) := by
  obtain ⟨g1, hg1, hr1, hv1, hl1⟩ := q_insert_head_spec h head xs s new hr hnew
  obtain ⟨g2, hg2, hr2, hv2, hl2⟩ := q_insert_tail_spec h head xs s new hr hnew
  refine ⟨⟨g1, hg1, hr1, by simp [hv1], fun x hx => by simp [hv1, Function.update_noteq hx],
      by simp [hl1], fun x hx => by simp [hl1, Function.update_noteq hx]⟩,
    ⟨g2, hg2, hr2, by simp [hv2], fun x hx => by simp [hv2, Function.update_noteq hx],
      by simp [hl2], fun x hx => by simp [hl2, Function.update_noteq hx]⟩⟩

/-- C3, on the queue "banana", "apple", "cherry" with the new node 7 and the
string "a". -/
theorem q_insert_head_tail_witness :
    Queue fruit_queue (some 0) [1, 2, 3] ∧ 7 ∉ [0, 1, 2, 3] ∧
    ((∃ g, q_insert_head fruit_queue (some 0) [97] (some 7) true = some (g, true) ∧
      Queue g (some 0) [7, 1, 2, 3] ∧ g.value 7 = [97] ∧
      (∀ x, x ≠ 7 → g.value x = fruit_queue.value x) ∧ g.live 7 = true ∧
      (∀ x, x ≠ 7 → g.live x = fruit_queue.live x)) ∧
    (∃ g, q_insert_tail fruit_queue (some 0) [97] (some 7) true = some (g, true) ∧
      Queue g (some 0) ([1, 2, 3] ++ [7]) ∧ g.value 7 = [97] ∧
      (∀ x, x ≠ 7 → g.value x = fruit_queue.value x) ∧ g.live 7 = true ∧
      (∀ x, x ≠ 7 → g.live x = fruit_queue.live x))) :=
  ⟨by decide, by decide,
    q_insert_head_tail fruit_queue 0 [1, 2, 3] [97] 7 (by decide) (by decide)⟩

/-- Unlinking the node `s` of a ring: the node before it, `sp`, and the node
after it, `sn`, are connected to each other. -/
theorem Ring_unlink {h g : Heap} {head : Nat} {P : List Nat} {s : Nat} {S : List Nat}
    (hr : Ring h head (P ++ s :: S))
    (hn : g.next = Function.update h.next ((head :: P).getLast (by simp))
      (some ((S ++ [head]).head (by simp))))
    (hp : g.prev = Function.update h.prev ((S ++ [head]).head (by simp))
      (some ((head :: P).getLast (by simp)))) :
    Ring g head (P ++ S) := by
  obtain ⟨hnd, hpn, hpb⟩ := hr
  have hndP : (head :: P).Nodup := by
    rw [← List.cons_append] at hnd
    exact (List.nodup_append.mp hnd).1
  have hsp_mem : (head :: P).getLast (by simp) ∈ head :: P := List.getLast_mem _
  have hnd2 : (head :: (P ++ S)).Nodup := by
    have hsub : (head :: (P ++ S)).Sublist (head :: (P ++ s :: S)) :=
      (List.Sublist.refl _).cons₂ _ |>.trans (by
        exact ((List.Sublist.refl P).append (List.sublist_cons_self s S)).cons₂ head)
    exact hnd.sublist hsub
  have hdisj : ∀ x ∈ head :: P, x ∉ s :: S := by
    rw [← List.cons_append] at hnd
    exact fun x hx => (List.nodup_append.mp hnd).2.2 hx
  have hpn2 := Path_append.mp hpn
  rw [List.append_assoc, Back_append] at hpb
  obtain ⟨hbP, hbs, hbS⟩ := hpb
  refine ⟨hnd2, ?_, ?_⟩
  · rw [hn]
    cases S with
    | nil =>
      simp only [List.nil_append, List.head_cons, List.append_nil]
      exact Path_set_last hpn2.1 hndP
    | cons y T =>
      rw [Path_append]
      refine ⟨Path_set_last hpn2.1 hndP, ?_⟩
      refine Path_update (fun e => ?_) hpn2.2.2
      exact hdisj _ hsp_mem (List.mem_cons_of_mem _ e)
  · rw [hp, List.append_assoc, Back_append]
    obtain ⟨c, T, hcT⟩ : ∃ c T, S ++ [head] = c :: T := by
      cases S with
      | nil => exact ⟨head, [], rfl⟩
      | cons y T => exact ⟨y, T ++ [head], rfl⟩
    have hndc : (c :: T).Nodup ∧ c ∉ P := by
      rw [← hcT]
      have h1 : (s :: S ++ [head]).Nodup := by
        have : (head :: (P ++ s :: S)).Perm (P ++ (s :: S ++ [head])) := by
          have := (List.perm_append_singleton head (P ++ s :: S)).symm
          simpa using this
        exact (List.nodup_append.mp (this.nodup_iff.mp hnd)).2.1
      refine ⟨(List.nodup_cons.mp h1).2, ?_⟩
      have hc : c ∈ S ++ [head] := by rw [hcT]; simp
      rcases List.mem_append.mp hc with e | e
      · exact fun hcp => hdisj c (List.mem_cons_of_mem _ hcp) (List.mem_cons_of_mem _ e)
      · simp at e; rw [e]; exact (List.nodup_cons.mp hndP).1
    have hhead : (S ++ [head]).head (by simp) = c := by simp [hcT]
    simp only [hhead]
    have hbS2 : Back h.prev s (S ++ [head]) := hbS
    rw [hcT] at hbS2 ⊢
    refine ⟨Back_update hndc.2 hbP, by simp, Back_update (List.nodup_cons.mp hndc.1).1 hbS2.2⟩

/-- The links of a node `s` of a ring: `prev` is the node before it and
`next` the node after it, the sentinel closing the ring on both sides. -/
theorem Ring_links {h : Heap} {head : Nat} {P : List Nat} {s : Nat} {S : List Nat}
    (hr : Ring h head (P ++ s :: S)) :
    h.next s = some ((S ++ [head]).head (by simp)) ∧
    h.prev s = some ((head :: P).getLast (by simp)) := by
  obtain ⟨-, hpn, hpb⟩ := hr
  have hpn2 := (Path_append.mp hpn).2
  rw [List.append_assoc, Back_append] at hpb
  refine ⟨?_, hpb.2.1⟩
  cases S with
  | nil => simpa [Path] using hpn2
  | cons y T => simpa using hpn2.1

theorem q_remove_head_spec (fuel : Nat) (h : Heap) (head : Ptr) (xs : List Nat)
    (sp : Option (List Nat)) (bufsize : Nat) (junk : Nat → Nat)
    (hq : Queue h head xs) (hf : xs.length < fuel) :
    ∃ g, q_remove_head fuel h head sp bufsize junk
        = some (g, xs.head?,
            match xs.head? with
            | none => sp
            | some x => sp.map (fun buf => copy_out buf (h.value x) bufsize junk)) ∧
      Queue g head xs.tail ∧ g.value = h.value ∧ g.live = h.live ∧ (xs = [] → g = h) := by
  have hsize := q_size_queue hq fuel hf
  cases xs with
  | nil =>
    exact ⟨h, by simp [q_remove_head, hsize], hq, rfl, rfl, fun _ => rfl⟩
  | cons x rest =>
    cases head with
    | none => simp [Queue] at hq
    | some hd =>
      have hr : Ring h hd ([] ++ x :: rest) := hq
      have hl := Ring_links hr
      have hxh : x ≠ hd := by
        have := hr.1; simp at this; tauto
      have hnext : h.next hd = some x := hr.2.1.1
      refine ⟨(h.setNext hd (h.next x)).setPrev ((rest ++ [hd]).head (by simp)) (some hd),
        ?_, ?_, rfl, rfl, fun e => by simp at e⟩
      · simp [q_remove_head, hsize, hnext, Function.update_noteq hxh, hl.1]
      · exact Ring_unlink hr (by simp [hl.1]) (by simp)

theorem q_remove_tail_spec (fuel : Nat) (h : Heap) (head : Ptr) (xs : List Nat)
    (sp : Option (List Nat)) (bufsize : Nat) (junk : Nat → Nat)
    (hq : Queue h head xs) (hf : xs.length < fuel) :
    ∃ g, q_remove_tail fuel h head sp bufsize junk
        = some (g, xs.getLast?,
            match xs.getLast? with
            | none => sp
            | some x => sp.map (fun buf => copy_out buf (h.value x) bufsize junk)) ∧
      Queue g head xs.dropLast ∧ g.value = h.value ∧ g.live = h.live ∧ (xs = [] → g = h) := by
  have hsize := q_size_queue hq fuel hf
  rcases List.eq_nil_or_concat xs with rfl | ⟨P, l, hx⟩
  · exact ⟨h, by simp [q_remove_tail, hsize], hq, rfl, rfl, fun _ => rfl⟩
  · rw [List.concat_eq_append] at hx
    subst hx
    cases head with
    | none => simp [Queue] at hq
    | some hd =>
      have hr : Ring h hd (P ++ l :: []) := hq
      have hl := Ring_links hr
      have hprev : h.prev hd = some l := by
        rw [Ring_prev_head hr]; simp [List.getLast_cons]
      refine ⟨(h.setNext ((hd :: P).getLast (by simp)) (some hd)).setPrev hd
        (some ((hd :: P).getLast (by simp))), ?_, ?_, rfl, rfl, fun e => by simp at e⟩
      · simp [q_remove_tail, hsize, hprev, hl.2]
      · have := Ring_unlink (g := (h.setNext ((hd :: P).getLast (by simp)) (some hd)).setPrev hd
          (some ((hd :: P).getLast (by simp)))) hr (by simp) (by simp)
        simpa [Queue] using this

theorem setLive_undo (h : Heap) (a : Nat) (ha : h.live a = false) :
    (h.setLive a true).setLive a false = h := by
  cases h with
  | mk n p v l =>
    simp only [Heap.setLive, Heap.mk.injEq, true_and]
    funext x
    by_cases hx : x = a
    · subst hx; simpa using ha.symm
    · simp [Function.update_noteq hx]

theorem Queue_next_some {h : Heap} {hd : Nat} {xs : List Nat} (hq : Queue h (some hd) xs) :
    ∃ t, h.next hd = some t := by
  have := Ring_next_head hq
  cases hm : (xs ++ [hd]).head? with
  | none => simp at hm
  | some t => exact ⟨t, by rw [this, hm]⟩

/-- C5: on a queue, `q_insert_head` and `q_insert_tail` return, and they return
`false` exactly when the queue is absent, `malloc` fails or `strdup` fails.
When they return `false` every link and every string is as before the call and
the queue has the same traversal; the heap as a whole is the one before the
call, `malloc` having returned a block that was not allocated. -/
theorem q_insert_failure (h : Heap) (head : Ptr) (xs : List Nat) (s : Str) (m : Ptr)
    (sd : Bool) (hq : Queue h head xs) :
    (∃ g ok, q_insert_head h head s m sd = some (g, ok) ∧
      (ok = false ↔ (head = none ∨ m = none ∨ sd = false)) ∧
      (ok = false → g.next = h.next ∧ g.prev = h.prev ∧ g.value = h.value ∧
        Queue g head xs ∧ ((∀ a, m = some a → h.live a = false) → g = h))) ∧
    (∃ g ok, q_insert_tail h head s m sd = some (g, ok) ∧
      (ok = false ↔ (head = none ∨ m = none ∨ sd = false)) ∧
      (ok = false → g.next = h.next ∧ g.prev = h.prev ∧ g.value = h.value ∧
        Queue g head xs ∧ ((∀ a, m = some a → h.live a = false) → g = h))) := by
  cases head with
  | none =>
    exact ⟨⟨h, false, by simp [q_insert_head], by simp, fun _ => ⟨rfl, rfl, rfl, hq, fun _ => rfl⟩⟩,
      ⟨h, false, by simp [q_insert_tail], by simp, fun _ => ⟨rfl, rfl, rfl, hq, fun _ => rfl⟩⟩⟩
  | some hd =>
    cases m with
    | none =>
      exact ⟨⟨h, false, by simp [q_insert_head], by simp,
          fun _ => ⟨rfl, rfl, rfl, hq, fun _ => rfl⟩⟩,
        ⟨h, false, by simp [q_insert_tail], by simp, fun _ => ⟨rfl, rfl, rfl, hq, fun _ => rfl⟩⟩⟩
    | some new =>
      cases sd with
      | false =>
        exact ⟨⟨(h.setLive new true).setLive new false, false, by simp [q_insert_head], by simp,
            fun _ => ⟨rfl, rfl, rfl, hq, fun hfr => setLive_undo h new (hfr new rfl)⟩⟩,
          ⟨(h.setLive new true).setLive new false, false, by simp [q_insert_tail], by simp,
            fun _ => ⟨rfl, rfl, rfl, hq, fun hfr => setLive_undo h new (hfr new rfl)⟩⟩⟩
      | true =>
        obtain ⟨t, ht⟩ := Queue_next_some hq
        have hp := Ring_prev_head hq
        exact ⟨⟨_, true, by simp [q_insert_head, ht]; rfl, by simp, fun e => by simp at e⟩,
          ⟨_, true, by simp [q_insert_tail, hp]; rfl, by simp, fun e => by simp at e⟩⟩

/-- C5, on the queue "banana", "apple", "cherry" when `strdup` fails after
`malloc` returned the block 7. -/
theorem q_insert_failure_witness :
    Queue fruit_queue (some 0) [1, 2, 3] ∧
    ((∃ g ok, q_insert_head fruit_queue (some 0) [97] (some 7) false = some (g, ok) ∧
      (ok = false ↔ (some 0 = none ∨ some 7 = none ∨ false = false)) ∧
      (ok = false → g.next = fruit_queue.next ∧ g.prev = fruit_queue.prev ∧
        g.value = fruit_queue.value ∧ Queue g (some 0) [1, 2, 3] ∧
        ((∀ a, some 7 = some a → fruit_queue.live a = false) → g = fruit_queue))) ∧
    (∃ g ok, q_insert_tail fruit_queue (some 0) [97] (some 7) false = some (g, ok) ∧
      (ok = false ↔ (some 0 = none ∨ some 7 = none ∨ false = false)) ∧
      (ok = false → g.next = fruit_queue.next ∧ g.prev = fruit_queue.prev ∧
        g.value = fruit_queue.value ∧ Queue g (some 0) [1, 2, 3] ∧
        ((∀ a, some 7 = some a → fruit_queue.live a = false) → g = fruit_queue)))) :=
  ⟨by decide, q_insert_failure fruit_queue (some 0) [1, 2, 3] [97] (some 7) false (by decide)⟩

theorem Ring_congr {h g : Heap} {head : Nat} {xs : List Nat} (hn : g.next = h.next)
    (hp : g.prev = h.prev) (hr : Ring h head xs) : Ring g head xs := by
  unfold Ring at hr ⊢
  rw [hn, hp]; exact hr

theorem run_ops_spec (fuel : Nat) (junk : Nat → Nat) (head : Nat) (ops : List Op) :
    ∀ (h : Heap) (xs : List Nat), Ring h head xs → h.live head = true →
    (∀ x ∈ xs, h.live x = true) → fresh_ops fuel junk (some head) h ops = true →
    xs.length + ops.length < fuel →
    ∃ g k j ys, run_ops fuel junk (some head) h ops = some (g, k, j) ∧ Ring g head ys ∧
      ys.length + j = xs.length + k ∧ ys.length ≤ xs.length + ops.length := by
  induction ops with
  | nil => intro h xs hr _ _ _ _; exact ⟨h, 0, 0, xs, rfl, hr, rfl, by simp⟩
  | cons op rest ih =>
    intro h xs hr hlh hlx hfresh hf
    have hf1 : xs.length < fuel := by simp at hf; omega
    -- it is enough to run the first call
    suffices hstep : ∃ g k j ys, run_op fuel junk (some head) h op = some (g, k, j) ∧
        Ring g head ys ∧ g.live head = true ∧ (∀ x ∈ ys, g.live x = true) ∧
        ys.length + j = xs.length + k ∧ ys.length ≤ xs.length + 1 by
      obtain ⟨g, k, j, ys, hrun, hrg, hlg, hly, hcount, hle⟩ := hstep
      have hfr : fresh_ops fuel junk (some head) g rest = true := by
        simp only [fresh_ops, hrun, Bool.and_eq_true] at hfresh
        exact hfresh.2
      obtain ⟨g2, k2, j2, zs, hrun2, hr2, hcount2, hle2⟩ := ih g ys hrg hlg hly hfr (by
        simp at hf; omega)
      refine ⟨g2, k + k2, j + j2, zs, ?_, hr2, by omega, by simp; omega⟩
      simp [run_ops, hrun, hrun2]
    have hins : ∀ a, h.live a = false → a ∉ head :: xs := by
      intro a ha hmem
      rcases List.mem_cons.mp hmem with e | e
      · rw [e, hlh] at ha; exact absurd ha (by simp)
      · rw [hlx a e] at ha; exact absurd ha (by simp)
    cases op with
    | insert_head s m sd =>
      cases m with
      | none =>
        exact ⟨h, 0, 0, xs, by simp [run_op, q_insert_head], hr, hlh, hlx, rfl, by omega⟩
      | some a =>
        have hla : h.live a = false := by
          simp only [fresh_ops, Bool.and_eq_true, Bool.not_eq_true'] at hfresh
          exact hfresh.1
        cases sd with
        | false =>
          refine ⟨h, 0, 0, xs, ?_, hr, hlh, hlx, rfl, by omega⟩
          simp [run_op, q_insert_head, setLive_undo h a hla]
        | true =>
          obtain ⟨g, hg, hrg, -, hl⟩ := q_insert_head_spec h head xs s a hr (hins a hla)
          refine ⟨g, 1, 0, a :: xs, by simp [run_op, hg], hrg, ?_, ?_, by simp, by simp⟩
          · rw [hl]; by_cases e : head = a
            · subst e; simp
            · simp [Function.update_noteq e, hlh]
          · intro x hx
            rw [hl]; by_cases e : x = a
            · subst e; simp
            · rw [Function.update_noteq e]
              exact hlx x ((List.mem_cons.mp hx).resolve_left e)
    | insert_tail s m sd =>
      cases m with
      | none =>
        exact ⟨h, 0, 0, xs, by simp [run_op, q_insert_tail], hr, hlh, hlx, rfl, by omega⟩
      | some a =>
        have hla : h.live a = false := by
          simp only [fresh_ops, Bool.and_eq_true, Bool.not_eq_true'] at hfresh
          exact hfresh.1
        cases sd with
        | false =>
          refine ⟨h, 0, 0, xs, ?_, hr, hlh, hlx, rfl, by omega⟩
          simp [run_op, q_insert_tail, setLive_undo h a hla]
        | true =>
          obtain ⟨g, hg, hrg, -, hl⟩ := q_insert_tail_spec h head xs s a hr (hins a hla)
          refine ⟨g, 1, 0, xs ++ [a], by simp [run_op, hg], hrg, ?_, ?_, by simp, by simp⟩
          · rw [hl]; by_cases e : head = a
            · subst e; simp
            · simp [Function.update_noteq e, hlh]
          · intro x hx
            rw [hl]; by_cases e : x = a
            · subst e; simp
            · rw [Function.update_noteq e]
              have : x ∈ xs := by simpa [e] using hx
              exact hlx x this
    | remove_head sp bufsize =>
      obtain ⟨g, hg, hqg, -, hl, -⟩ :=
        q_remove_head_spec fuel h (some head) xs sp bufsize junk hr hf1
      refine ⟨g, 0, if xs.head? = none then 0 else 1, xs.tail, by simp [run_op, hg], hqg,
        by rw [hl]; exact hlh, fun x hx => by rw [hl]; exact hlx x (List.mem_of_mem_tail hx), ?_,
        by simp; omega⟩
      cases xs <;> simp
    | remove_tail sp bufsize =>
      obtain ⟨g, hg, hqg, -, hl, -⟩ :=
        q_remove_tail_spec fuel h (some head) xs sp bufsize junk hr hf1
      refine ⟨g, 0, if xs.getLast? = none then 0 else 1, xs.dropLast, by simp [run_op, hg], hqg,
        by rw [hl]; exact hlh, fun x hx => by rw [hl]; exact hlx x (List.mem_of_mem_dropLast hx),
        ?_, by simp; omega⟩
      rcases List.eq_nil_or_concat xs with rfl | ⟨P, l, rfl⟩
      · simp
      · simp

theorem int32_succ (x : Int) : int32 (int32 x + 1) = int32 (x + 1) := by
  unfold int32; omega

theorem int32_of_le {x : Int} (h0 : 0 ≤ x) (h1 : x ≤ INT_MAX) : int32 x = x := by
  unfold INT_MAX at h1; unfold int32; omega

theorem int32_range (x : Int) : -2147483648 ≤ int32 x ∧ int32 x ≤ INT_MAX := by
  unfold INT_MAX int32; omega

theorem q_size_int_loop_eq (h : Heap) (head : Nat) (fuel : Nat) : ∀ (p : Ptr) (count : Nat),
    q_size_int_loop h head fuel p (int32 count) =
      (q_size_loop h head fuel p count).map (fun (n : Nat) => int32 (n : Int)) := by
  induction fuel with
  | zero => intro p count; rfl
  | succ fuel ih =>
    intro p count
    by_cases hp : p = some head
    · simp [q_size_int_loop, q_size_loop, hp]
    · cases p with
      | none => simp [q_size_int_loop, q_size_loop]
      | some c =>
        simp only [q_size_int_loop, q_size_loop, hp, if_false]
        rw [int32_succ, ← ih (h.next c) (count + 1)]
        simp

/-- The `int` that `q_size` returns is the count of the traversal reduced to
32 bits, on every heap. -/
theorem q_size_int_eq (fuel : Nat) (h : Heap) (head : Ptr) :
    q_size_int fuel h head = (q_size fuel h head).map (fun (n : Nat) => int32 (n : Int)) := by
  cases head with
  | none => simp [q_size_int, q_size, int32]
  | some hd =>
    by_cases he : list_empty h hd = true
    · simp [q_size_int, q_size, he, int32]
    · simp only [q_size_int, q_size, he, if_false]
      have := q_size_int_loop_eq h hd fuel (h.next hd) 0
      simpa [int32] using this

theorem q_size_int_queue {h : Heap} {head : Ptr} {xs : List Nat} (hq : Queue h head xs)
    (fuel : Nat) (hf : xs.length < fuel) :
    q_size_int fuel h head = some (int32 xs.length) := by
  rw [q_size_int_eq, q_size_queue hq fuel hf]; rfl

theorem q_size_int_queue_le {h : Heap} {head : Ptr} {xs : List Nat} (hq : Queue h head xs)
    (fuel : Nat) (hf : xs.length < fuel) (hi : (xs.length : Int) ≤ INT_MAX) :
    q_size_int fuel h head = some (xs.length : Int) := by
  rw [q_size_int_queue hq fuel hf, int32_of_le (by omega) hi]

theorem q_size_int_range {fuel : Nat} {h : Heap} {head : Ptr} {r : Int}
    (hr : q_size_int fuel h head = some r) : -2147483648 ≤ r ∧ r ≤ INT_MAX := by
  rw [q_size_int_eq] at hr
  cases hq : q_size fuel h head with
  | none => simp [hq] at hr
  | some n =>
    simp only [hq, Option.map_some', Option.some.injEq] at hr
    rw [← hr]; exact int32_range _

theorem tail_inserts_run (fuel : Nat) (junk : Nat → Nat) : ∀ (n a : Nat) (h : Heap)
    (xs : List Nat), Ring h 0 xs → 0 < a → (∀ x ∈ xs, x < a) → (∀ x, a ≤ x → h.live x = false) →
    ∃ g, run_ops fuel junk (some 0) h (tail_inserts a n) = some (g, n, 0) ∧
      Ring g 0 (xs ++ List.range' a n) ∧
      fresh_ops fuel junk (some 0) h (tail_inserts a n) = true := by
  intro n
  induction n with
  | zero =>
    intro a h xs hr _ _ _
    exact ⟨h, rfl, by simpa using hr, rfl⟩
  | succ n ih =>
    intro a h xs hr ha hxs hlive
    have hnew : a ∉ 0 :: xs := by
      intro hm
      rcases List.mem_cons.mp hm with e | e
      · omega
      · exact absurd (hxs a e) (by omega)
    obtain ⟨g1, hg1, hr1, -, hl1⟩ := q_insert_tail_spec h 0 xs [] a hr hnew
    obtain ⟨g, hg, hrg, hfr⟩ := ih (a + 1) g1 (xs ++ [a]) hr1 (by omega)
      (by
        intro x hx
        rcases List.mem_append.mp hx with e | e
        · have := hxs x e; omega
        · simp at e; omega)
      (by
        intro x hx
        rw [hl1, Function.update_noteq (by omega)]
        exact hlive x (by omega))
    have hops : tail_inserts a (n + 1) =
        Op.insert_tail [] (some a) true :: tail_inserts (a + 1) n := by
      simp [tail_inserts, List.range'_succ]
    refine ⟨g, ?_, ?_, ?_⟩
    · rw [hops]
      simp only [run_ops, run_op, hg1, Option.map_some', hg, if_true]
      simp; omega
    · rw [List.range'_succ]
      simpa using hrg
    · rw [hops]
      simp only [fresh_ops, run_op, hg1, Option.map_some', hfr, hlive a (le_refl a)]
      rfl

/-- C7, amended: `q_size` returns the number of elements of the queue whenever
that number is at most `INT_MAX`, and 0 for an absent queue; in general it
returns that number reduced to a 32-bit `int`.  After any sequence of calls of
`q_insert_head`, `q_insert_tail`, `q_remove_head` and `q_remove_tail` on an
empty queue, of which `k` insertions and `j` removals succeed, `j ≤ k`, and
`q_size` returns `k - j` when `k ≤ INT_MAX`. -/
theorem q_size_int_counts (fuel : Nat) (junk : Nat → Nat) (h : Heap) (head : Nat)
    (ops : List Op) (hq : Queue h (some head) []) (hlive : h.live head = true)
    (hfresh : fresh_ops fuel junk (some head) h ops = true) (hf : ops.length < fuel) :
    (∀ (g : Heap) (p : Ptr) (xs : List Nat), Queue g p xs → xs.length < fuel →
      q_size_int fuel g p = some (int32 xs.length) ∧
      ((xs.length : Int) ≤ INT_MAX → q_size_int fuel g p = some (xs.length : Int))) ∧
    q_size_int fuel h none = some 0 ∧ q_size_int fuel h (some head) = some 0 ∧
    ∃ g k j, run_ops fuel junk (some head) h ops = some (g, k, j) ∧ j ≤ k ∧
      ((k : Int) ≤ INT_MAX → q_size_int fuel g (some head) = some ((k : Int) - (j : Int))) := by
  refine ⟨fun g p xs hg hx =>
    ⟨q_size_int_queue hg fuel hx, q_size_int_queue_le hg fuel hx⟩, rfl, ?_, ?_⟩
  · exact q_size_int_queue_le hq fuel (by simp; omega) (by simp [INT_MAX])
  · obtain ⟨g, k, j, ys, hrun, hrg, hcount, hys⟩ :=
      run_ops_spec fuel junk head ops h [] hq hlive (by simp) hfresh (by simpa using hf)
    simp only [List.length_nil, Nat.zero_add] at hcount hys
    refine ⟨g, k, j, hrun, by omega, fun hk => ?_⟩
    have hq' : Queue g (some head) ys := hrg
    rw [q_size_int_queue_le hq' fuel (by omega) (by omega)]
    congr 1; omega

/-- C7, on the empty queue made by `q_new` at address 0: two insertions
succeed, one fails in `strdup`, two removals succeed and a third finds the
queue empty; the size is then 0, and it is 2 after the first three calls. -/
theorem q_size_int_counts_witness :
    Queue (q_new blank (some 0)).1 (some 0) [] ∧
    ((∀ (g : Heap) (p : Ptr) (xs : List Nat), Queue g p xs → xs.length < 7 →
      q_size_int 7 g p = some (int32 xs.length) ∧
      ((xs.length : Int) ≤ INT_MAX → q_size_int 7 g p = some (xs.length : Int))) ∧
    q_size_int 7 (q_new blank (some 0)).1 none = some 0 ∧
    q_size_int 7 (q_new blank (some 0)).1 (some 0) = some 0 ∧
    ∃ g k j, run_ops 7 (fun _ => 0) (some 0) (q_new blank (some 0)).1
        [Op.insert_head [97] (some 1) true, Op.insert_tail [98] (some 2) false,
          Op.insert_tail [99] (some 2) true, Op.remove_head none 0, Op.remove_tail none 0,
          Op.remove_tail none 0] = some (g, k, j) ∧ j ≤ k ∧
      ((k : Int) ≤ INT_MAX → q_size_int 7 g (some 0) = some ((k : Int) - (j : Int)))) ∧
    (run_ops 7 (fun _ => 0) (some 0) (q_new blank (some 0)).1
        [Op.insert_head [97] (some 1) true, Op.insert_tail [98] (some 2) false,
          Op.insert_tail [99] (some 2) true]).bind
        (fun r => (q_size_int 7 r.1 (some 0)).map (fun n => (n, r.2.1, r.2.2)))
      = some (2, 2, 0) :=
  ⟨by decide,
    q_size_int_counts 7 (fun _ => 0) (q_new blank (some 0)).1 0
      [Op.insert_head [97] (some 1) true, Op.insert_tail [98] (some 2) false,
        Op.insert_tail [99] (some 2) true, Op.remove_head none 0, Op.remove_tail none 0,
        Op.remove_tail none 0] (by decide) (by decide) (by decide) (by decide),
    by decide⟩

/-- C7, as stated, fails for the `2^31` calls of `q_insert_tail` on the empty
queue made by `q_new` at address 0, `malloc` returning the unallocated
addresses `1, ..., 2^31`: all `k = 2^31` insertions succeed, no removal is
made, the heap then holds a well-formed queue of `2^31` elements, and `q_size`
returns `-2^31`, not `k - j = 2^31`; no amount of fuel makes it return `2^31`,
which is not a value of `int`. -/
theorem q_size_int_overflows :
    Queue (q_new blank (some 0)).1 (some 0) [] ∧
    (q_new blank (some 0)).1.live 0 = true ∧
    fresh_ops 2147483649 (fun _ => 0) (some 0) (q_new blank (some 0)).1
      (tail_inserts 1 2147483648) = true ∧
    (tail_inserts 1 2147483648).length < 2147483649 ∧
    ∃ g, run_ops 2147483649 (fun _ => 0) (some 0) (q_new blank (some 0)).1
        (tail_inserts 1 2147483648) = some (g, 2147483648, 0) ∧
      Queue g (some 0) (List.range' 1 2147483648) ∧
      (List.range' 1 2147483648).length = 2147483648 ∧
      q_size_int 2147483649 g (some 0) = some (-2147483648) ∧
      q_size_int 2147483649 g (some 0) ≠ some ((2147483648 : Int) - (0 : Int)) ∧
      ¬ ∃ fuel, q_size_int fuel g (some 0) = some 2147483648 := by
  have h0 : Queue (q_new blank (some 0)).1 (some 0) [] := by decide
  have hl0 : ∀ x, 1 ≤ x → (q_new blank (some 0)).1.live x = false := by
    intro x hx
    have hx0 : x ≠ 0 := by omega
    simp [q_new, blank, Heap.setLive, Heap.setNext, Heap.setPrev, Function.update, hx0]
  obtain ⟨g, hg, hrg, hfr⟩ := tail_inserts_run 2147483649 (fun _ => 0) 2147483648 1
    (q_new blank (some 0)).1 [] h0 (by omega) (fun x hx => absurd hx (List.not_mem_nil x)) hl0
  rw [List.nil_append] at hrg
  have hq : Queue g (some 0) (List.range' 1 2147483648) := hrg
  have hlen : (List.range' 1 2147483648).length = 2147483648 := List.length_range' _ _ _
  have hs : q_size_int 2147483649 g (some 0) = some (-2147483648) := by
    rw [q_size_int_queue hq 2147483649 (by rw [hlen]; omega), hlen]
    congr 1
  refine ⟨h0, by decide, hfr, ?_, g, hg, hq, hlen, hs, ?_, ?_⟩
  · unfold tail_inserts
    rw [List.length_map, hlen]
    omega
  · rw [hs]; intro e; injection e with e; omega
  · rintro ⟨fuel, hf⟩
    have := (q_size_int_range hf).2
    unfold INT_MAX at this; omega

/-- The loop of `q_reverse` from a node `c` of the ring on: every node from
`c` to the tail gets its `next` and `prev` exchanged. -/
theorem q_reverse_loop_spec (head : Nat) (ys : List Nat) : ∀ (h : Heap) (c : Nat) (pn : Ptr)
    (fuel : Nat), Path h.next c ys (some head) → (head :: c :: ys).Nodup → ys.length < fuel →
    ∃ g, q_reverse_loop head fuel h c pn (h.next c) = some g ∧
      g.next c = pn ∧ Back g.next c ys ∧ Path g.prev c ys (some head) ∧
      (∀ x, x ∉ c :: ys → g.next x = h.next x) ∧
      (∀ x, x ∉ c :: ys → g.prev x = h.prev x) ∧
      g.value = h.value ∧ g.live = h.live := by
  induction ys with
  | nil =>
    intro h c pn fuel hp hnd hf
    obtain ⟨fuel, rfl⟩ : ∃ k, fuel = k + 1 := ⟨fuel - 1, by simp at hf; omega⟩
    simp only [Path] at hp
    refine ⟨(h.setPrev c (some head)).setNext c pn, by simp [q_reverse_loop, hp], by simp,
      trivial, by simp [Path], ?_, ?_, rfl, rfl⟩
    · intro x hx
      have : x ≠ c := fun e => hx (by simp [e])
      simp [Function.update_noteq this]
    · intro x hx
      have : x ≠ c := fun e => hx (by simp [e])
      simp [Function.update_noteq this]
  | cons y ys ih =>
    intro h c pn fuel hp hnd hf
    obtain ⟨fuel, rfl⟩ : ∃ k, fuel = k + 1 := ⟨fuel - 1, by simp at hf; omega⟩
    have hF : y ≠ head ∧ y ≠ c ∧ c ∉ y :: ys ∧ (head :: y :: ys).Nodup := by
      simp at hnd ⊢; tauto
    obtain ⟨hyh, hyc, hcys, hnd2⟩ := hF
    let h1 := (h.setPrev c (some y)).setNext c pn
    have hp1 : Path h1.next y ys (some head) := Path_update hcys hp.2
    have hny : h1.next y = h.next y := by simp [h1, Function.update_noteq hyc]
    obtain ⟨g, hg, hgn, hgb, hgp, hfn, hfp, hv, hl⟩ := ih h1 y (some c) fuel hp1 hnd2 (by
      simp at hf; omega)
    refine ⟨g, ?_, ?_, ⟨hgn, hgb⟩, ⟨?_, hgp⟩, ?_, ?_, hv, hl⟩
    · rw [← hg]
      simp [q_reverse_loop, hp.1, hyh, h1, Function.update_noteq hyc]
    · rw [hfn c hcys]; simp [h1]
    · rw [hfp c hcys]; simp [h1]
    · intro x hx
      have hxc : x ≠ c := fun e => hx (by simp [e])
      rw [hfn x (fun e => hx (List.mem_cons_of_mem _ e))]
      simp [h1, Function.update_noteq hxc]
    · intro x hx
      have hxc : x ≠ c := fun e => hx (by simp [e])
      rw [hfp x (fun e => hx (List.mem_cons_of_mem _ e))]
      simp [h1, Function.update_noteq hxc]

theorem q_reverse_ring (fuel : Nat) (h : Heap) (head : Nat) (xs : List Nat)
    (hr : Ring h head xs) (hlen : 2 ≤ xs.length) (hf : xs.length < fuel) :
    ∃ g, q_reverse fuel h (some head) = some g ∧ Ring g head xs.reverse ∧
      (∀ x, x ∉ head :: xs → g.next x = h.next x) ∧
      (∀ x, x ∉ head :: xs → g.prev x = h.prev x) ∧
      g.value = h.value ∧ g.live = h.live := by
  obtain ⟨x0, rest, rfl⟩ : ∃ x0 rest, xs = x0 :: rest := by
    cases xs with
    | nil => simp at hlen
    | cons a l => exact ⟨a, l, rfl⟩
  have hsize := q_size_ring hr fuel hf
  have hprev := Ring_prev_head hr
  obtain ⟨hnd, hpn, hpb⟩ := hr
  obtain ⟨fuel, rfl⟩ : ∃ k, fuel = k + 1 := ⟨fuel - 1, by simp at hf; omega⟩
  have hF : x0 ≠ head ∧ head ∉ x0 :: rest := by
    simp at hnd ⊢; tauto
  obtain ⟨hx0, hhx⟩ := hF
  let h1 := (h.setPrev head (some x0)).setNext head (some ((head :: x0 :: rest).getLast (by simp)))
  have hp1 : Path h1.next x0 rest (some head) := Path_update hhx hpn.2
  have hn1 : h1.next x0 = h.next x0 := by simp [h1, Function.update_noteq hx0]
  obtain ⟨g, hg, hgn, hgb, hgp, hfn, hfp, hv, hl⟩ :=
    q_reverse_loop_spec head rest h1 x0 (some head) fuel hp1 hnd (by simp at hf; omega)
  have hnd2 : (head :: (x0 :: rest).reverse).Nodup := by
    have : (head :: (x0 :: rest).reverse).Perm (head :: x0 :: rest) :=
      (List.reverse_perm _).cons _
    exact this.nodup_iff.mpr hnd
  have hgh_next : g.next head = some ((head :: x0 :: rest).getLast (by simp)) := by
    rw [hfn head hhx]; simp [h1]
  have hgh_prev : g.prev head = some x0 := by
    rw [hfp head hhx]; simp [h1]
  refine ⟨g, ?_, ⟨hnd2, ?_, ?_⟩, ?_, ?_, hv, hl⟩
  · have hne : ¬ (x0 :: rest).length ≤ 1 := by simp only [List.length_cons] at hlen ⊢; omega
    have hrest : rest ≠ [] := by rintro rfl; simp at hlen
    rw [← hg]
    simp [q_reverse, hsize, hrest, q_reverse_loop, hprev, hpn.1, hx0, h1,
      Function.update_noteq hx0]
  · rw [← Back_snoc_iff_Path_reverse]
    refine ⟨hgn, ?_⟩
    show Back g.next x0 (rest ++ [head])
    rw [Back_append]
    refine ⟨hgb, ?_⟩
    simp only [Back, and_true]
    rw [hgh_next, List.getLast_cons (by simp)]
  · rw [Back_snoc_iff_Path_reverse, List.reverse_reverse]
    exact ⟨hgh_prev, hgp⟩
  · intro x hx
    have hxh : x ≠ head := fun e => hx (by simp [e])
    rw [hfn x (fun e => hx (List.mem_cons_of_mem _ e))]
    simp [h1, Function.update_noteq hxh]
  · intro x hx
    have hxh : x ≠ head := fun e => hx (by simp [e])
    rw [hfp x (fun e => hx (List.mem_cons_of_mem _ e))]
    simp [h1, Function.update_noteq hxh]

theorem q_reverse_queue (fuel : Nat) (h : Heap) (head : Ptr) (xs : List Nat)
    (hq : Queue h head xs) (hf : xs.length < fuel) :
    ∃ g, q_reverse fuel h head = some g ∧ Queue g head xs.reverse ∧
      g.value = h.value ∧ g.live = h.live ∧ (xs.length ≤ 1 → g = h) := by
  by_cases hlen : xs.length ≤ 1
  · have hsize := q_size_queue hq fuel hf
    have hrev : xs.reverse = xs := by
      match xs, hlen with
      | [], _ => simp
      | [a], _ => simp
    refine ⟨h, ?_, by rw [hrev]; exact hq, rfl, rfl, fun _ => rfl⟩
    simp [q_reverse, hsize, hlen]
  · cases head with
    | none => simp [Queue] at hq; simp [hq] at hlen
    | some hd =>
      obtain ⟨g, hg, hr, -, -, hv, hl⟩ := q_reverse_ring fuel h hd xs hq (by omega) hf
      exact ⟨g, hg, hr, hv, hl, fun hc => absurd hc hlen⟩

theorem swap_pairs_perm : ∀ l : List Nat, (swap_pairs l).Perm l
  | [] => List.Perm.refl _
  | [_] => List.Perm.refl _
  | a :: b :: rest => by
    simp only [swap_pairs]
    exact (List.Perm.swap a b _).trans (((swap_pairs_perm rest).cons b).cons a)

theorem q_swap_loop_spec (head : Nat) (fuel : Nat) : ∀ (h : Heap) (p a : Nat) (rest : List Nat),
    (head :: a :: rest).Nodup → p ∉ a :: rest →
    Path h.next p (a :: rest) (some head) → Back h.prev p (a :: rest ++ [head]) →
    rest.length < fuel →
    ∃ g, q_swap_loop head fuel h (some a) (h.next a) = some g ∧
      Path g.next p (swap_pairs (a :: rest)) (some head) ∧
      Back g.prev p (swap_pairs (a :: rest) ++ [head]) ∧
      (∀ x, x ∉ p :: a :: rest → g.next x = h.next x) ∧
      (∀ x, x ∉ a :: rest ++ [head] → g.prev x = h.prev x) ∧
      g.value = h.value ∧ g.live = h.live := by
  induction fuel with
  | zero => intro h p a rest _ _ _ _ hf; omega
  | succ fuel ih =>
    intro h p a rest hnd hp hpn hpb hf
    have hah : a ≠ head := by
      intro e; simp [e] at hnd
    cases rest with
    | nil =>
      have hna : h.next a = some head := by simpa [Path] using hpn.2
      exact ⟨h, by simp [q_swap_loop, hna], hpn, hpb, fun _ _ => rfl, fun _ _ => rfl, rfl, rfl⟩
    | cons b rest =>
      have hna : h.next a = some b := hpn.2.1
      have hpa : h.prev a = some p := hpb.1
      have hF : b ≠ head ∧ a ≠ b ∧ p ≠ a ∧ p ≠ b ∧ a ∉ rest ∧ b ∉ rest ∧ p ∉ rest ∧
          head ∉ rest := by
        simp at hnd hp ⊢; tauto
      obtain ⟨hbh, hab, hpa2, hpb2, har, hbr, hpr, hhr⟩ := hF
      cases rest with
      | nil =>
        have hnb : h.next b = some head := by simpa [Path] using hpn.2.2
        refine ⟨(((((h.setNext p (some b)).setPrev b (some p)).setPrev head (some a)).setNext a
          (some head)).setPrev a (some b)).setNext b (some a), ?_, ?_, ?_, ?_, ?_, rfl, rfl⟩
        · simp [q_swap_loop, hna, hah, hbh, hpa, hnb, Function.update_noteq hpb2.symm,
            Function.update_noteq hab]
        · simp [swap_pairs, Path, Function.update_noteq hpb2, Function.update_noteq hpa2,
            Function.update_noteq hab]
        · simp [swap_pairs, Back, Function.update_noteq hab.symm, Function.update_noteq hbh,
            Function.update_noteq hah.symm]
        · intro x hx
          simp only [List.mem_cons, not_or] at hx
          simp [Function.update_noteq hx.1, Function.update_noteq hx.2.1,
            Function.update_noteq hx.2.2.1]
        · intro x hx
          simp only [List.mem_cons, List.cons_append, List.nil_append, not_or] at hx
          simp [Function.update_noteq hx.1, Function.update_noteq hx.2.1,
            Function.update_noteq hx.2.2.1]
      | cons c rest =>
        have hnb : h.next b = some c := hpn.2.2.1
        have hG : c ≠ head ∧ c ≠ a ∧ c ≠ b ∧ c ≠ p ∧ c ∉ rest ∧ (head :: c :: rest).Nodup := by
          simp at hnd hp har hbr hpr hhr ⊢; tauto
        obtain ⟨hch, hca, hcb, hcp, hcr, hnd2⟩ := hG
        let h6 := (((((h.setNext p (some b)).setPrev b (some p)).setPrev c (some a)).setNext a
          (some c)).setPrev a (some b)).setNext b (some a)
        have hpn6 : Path h6.next a (c :: rest) (some head) := by
          refine ⟨by simp [h6, Function.update_noteq hab], ?_⟩
          simp only [h6, setNext_next, setPrev_next]
          refine Path_update ?_ (Path_update ?_ (Path_update ?_ hpn.2.2.2))
          · simp at hbr ⊢; tauto
          · simp at har ⊢; tauto
          · simp at hpr ⊢; tauto
        have hpb6 : Back h6.prev a (c :: rest ++ [head]) := by
          refine ⟨by simp [h6, Function.update_noteq hca], ?_⟩
          simp only [h6, setNext_prev, setPrev_prev]
          have hb0 : Back h.prev c (rest ++ [head]) := hpb.2.2.2
          refine Back_update ?_ (Back_update ?_ (Back_update ?_ hb0))
          · simp at har ⊢; tauto
          · simp at hcr ⊢; tauto
          · simp at hbr ⊢; tauto
        obtain ⟨g, hg, hgn, hgb, hfn, hfp, hv, hl⟩ :=
          ih h6 a c rest hnd2 (by simp at har ⊢; tauto) hpn6 hpb6 (by simp at hf ⊢; omega)
        have hsw : swap_pairs (a :: b :: c :: rest) = b :: a :: swap_pairs (c :: rest) := rfl
        rw [hsw]
        refine ⟨g, ?_, ⟨?_, ?_, hgn⟩, ⟨?_, ?_, hgb⟩, ?_, ?_, hv, hl⟩
        · rw [← hg]
          simp [q_swap_loop, hna, hah, hbh, hpa, hnb, Function.update_noteq hpb2.symm,
            Function.update_noteq hab, hch, h6, Function.update_noteq hcb,
            Function.update_noteq hca, Function.update_noteq hcp]
        · rw [hfn p (by simp at hpr ⊢; tauto)]
          simp [h6, Function.update_noteq hpb2, Function.update_noteq hpa2]
        · rw [hfn b (by simp at hbr ⊢; tauto)]
          simp [h6]
        · rw [hfp b (by simp at hbr ⊢; tauto)]
          simp [h6, Function.update_noteq hab.symm, Function.update_noteq hcb.symm]
        · rw [hfp a (by simp at har ⊢; tauto)]
          simp [h6]
        · intro x hx
          simp only [List.mem_cons, not_or] at hx
          rw [hfn x (by simp; tauto)]
          simp [h6, Function.update_noteq hx.1, Function.update_noteq hx.2.1,
            Function.update_noteq hx.2.2.1]
        · intro x hx
          simp only [List.mem_cons, List.cons_append, List.mem_append, List.mem_singleton,
            not_or] at hx
          rw [hfp x (by simp; tauto)]
          simp [h6, Function.update_noteq hx.1, Function.update_noteq hx.2.1,
            Function.update_noteq hx.2.2.1]

theorem q_swap_queue (fuel : Nat) (h : Heap) (head : Ptr) (xs : List Nat)
    (hq : Queue h head xs) (hf : xs.length < fuel) :
    ∃ g, q_swap fuel h head = some g ∧ Queue g head (swap_pairs xs) ∧
      g.value = h.value ∧ g.live = h.live ∧ (xs.length ≤ 1 → g = h) := by
  have hsize := q_size_queue hq fuel hf
  by_cases hlen : xs.length ≤ 1
  · have hsw : swap_pairs xs = xs := by
      match xs, hlen with
      | [], _ => rfl
      | [a], _ => rfl
    refine ⟨h, ?_, by rw [hsw]; exact hq, rfl, rfl, fun _ => rfl⟩
    simp [q_swap, hsize, hlen]
  · cases head with
    | none => simp [Queue] at hq; simp [hq] at hlen
    | some hd =>
      obtain ⟨a, rest, rfl⟩ : ∃ a rest, xs = a :: rest := by
        cases xs with
        | nil => simp at hlen
        | cons a l => exact ⟨a, l, rfl⟩
      obtain ⟨hnd, hpn, hpb⟩ := hq
      obtain ⟨g, hg, hgn, hgb, -, -, hv, hl⟩ :=
        q_swap_loop_spec hd fuel h hd a rest hnd (List.nodup_cons.mp hnd).1 hpn hpb
          (by simp at hf; omega)
      refine ⟨g, ?_, ⟨?_, hgn, hgb⟩, hv, hl, fun hc => absurd hc hlen⟩
      · have hrest : rest ≠ [] := by rintro rfl; simp at hlen
        rw [← hg]
        simp [q_swap, hsize, hrest, hpn.1]
      · exact ((swap_pairs_perm (a :: rest)).cons hd).nodup_iff.mpr hnd

/-- In a ring the successor of the element at index `j` is the element at
index `j + 1`, the sentinel after the last one. -/
theorem Ring_next_getElem {h : Heap} {head : Nat} {xs : List Nat} (hr : Ring h head xs)
    (j x : Nat) (hj : (xs ++ [head])[j]? = some x) (hlt : j < xs.length) :
    h.next x = (xs ++ [head])[j + 1]? := by
  have hx : xs[j]? = some x := by
    rw [List.getElem?_append_left hlt] at hj; exact hj
  have := Path_next_getElem hr.2.1 (j + 1) x (by simpa using hx)
  simpa using this

theorem Ring_cycle_eq_head {head : Nat} {xs : List Nat} (hnd : (head :: xs).Nodup) (j : Nat) :
    (xs ++ [head])[j]? = some head ↔ j = xs.length := by
  constructor
  · intro hj
    by_contra hne
    rcases Nat.lt_or_gt_of_ne hne with hlt | hgt
    · rw [List.getElem?_append_left hlt] at hj
      exact (List.nodup_cons.mp hnd).1 (List.getElem?_mem hj)
    · rw [List.getElem?_eq_none_iff.mpr (by simp; omega)] at hj
      exact absurd hj (by simp)
  · rintro rfl
    simp

theorem q_delete_mid_loop_spec {h : Heap} {head : Nat} {xs : List Nat} (hr : Ring h head xs)
    (fuel : Nat) : ∀ i : Nat, 2 * i + 1 ≤ xs.length → xs.length ≤ fuel + i →
    q_delete_mid_loop h head fuel (xs ++ [head])[i]? (xs ++ [head])[2 * i + 1]?
      = some (xs ++ [head])[(xs.length - 1) / 2]? := by
  induction fuel with
  | zero => intro i h1 h2; omega
  | succ fuel ih =>
    intro i h1 h2
    have hnd := hr.1
    by_cases hfast : (xs ++ [head])[2 * i + 1]? = some head
    · have hn : 2 * i + 1 = xs.length := (Ring_cycle_eq_head hnd _).mp hfast
      have : (xs.length - 1) / 2 = i := by omega
      simp only [q_delete_mid_loop, hfast, if_true, this]
    · have hlt : 2 * i + 1 < xs.length := by
        rcases Nat.lt_or_ge (2 * i + 1) xs.length with hc | hc
        · exact hc
        · exact absurd ((Ring_cycle_eq_head hnd _).mpr (by omega)) hfast
      obtain ⟨f, hf⟩ : ∃ f, (xs ++ [head])[2 * i + 1]? = some f :=
        ⟨_, List.getElem?_eq_getElem (by simp; omega)⟩
      have hnf := Ring_next_getElem hr _ _ hf hlt
      by_cases hfn : (xs ++ [head])[2 * i + 1 + 1]? = some head
      · have hn : 2 * i + 1 + 1 = xs.length := (Ring_cycle_eq_head hnd _).mp hfn
        have : (xs.length - 1) / 2 = i := by omega
        rw [hf] at hfast
        simp only [q_delete_mid_loop, hf, hfast, if_false, Option.bind_eq_bind,
          Option.some_bind, hnf, hfn, if_true, this]
      · have hlt2 : 2 * i + 1 + 1 < xs.length := by
          rcases Nat.lt_or_ge (2 * i + 1 + 1) xs.length with hc | hc
          · exact hc
          · exact absurd ((Ring_cycle_eq_head hnd _).mpr (by omega)) hfn
        obtain ⟨fn, hfn2⟩ : ∃ fn, (xs ++ [head])[2 * i + 1 + 1]? = some fn :=
          ⟨_, List.getElem?_eq_getElem (by simp; omega)⟩
        obtain ⟨s, hs⟩ : ∃ s, (xs ++ [head])[i]? = some s :=
          ⟨_, List.getElem?_eq_getElem (by simp; omega)⟩
        have hns := Ring_next_getElem hr _ _ hs (by omega)
        have hnfn := Ring_next_getElem hr _ _ hfn2 hlt2
        have := ih (i + 1) (by omega) (by omega)
        rw [hf] at hfast
        rw [hfn2] at hfn
        simp only [q_delete_mid_loop, hf, hfast, if_false, Option.bind_eq_bind,
          Option.some_bind, hnf, hfn2, hfn, hs, hns, hnfn]
        rw [← this]
        congr 2

theorem exists_split_at (xs : List Nat) (k : Nat) (hk : k < xs.length) :
    ∃ P s S, xs = P ++ s :: S ∧ P.length = k ∧ xs[k]? = some s ∧ xs.eraseIdx k = P ++ S := by
  refine ⟨xs.take k, xs[k], xs.drop (k + 1), ?_, ?_, ?_, ?_⟩
  · rw [List.getElem_cons_drop, List.take_append_drop]
  · simp; omega
  · exact List.getElem?_eq_getElem hk
  · exact List.eraseIdx_eq_take_drop_succ xs k

theorem q_delete_mid_spec (fuel : Nat) (h : Heap) (head : Ptr) (xs : List Nat)
    (hq : Queue h head xs) (hf : xs.length < fuel) :
    (xs = [] → q_delete_mid fuel h head = some (h, false)) ∧
    (xs ≠ [] → ∃ g s, xs[(xs.length - 1) / 2]? = some s ∧
      q_delete_mid fuel h head = some (g, true) ∧
      Queue g head (xs.eraseIdx ((xs.length - 1) / 2)) ∧ g.value = h.value ∧
      g.live = Function.update h.live s false) := by
  have hsize := q_size_queue hq fuel hf
  refine ⟨fun he => by subst he; simp [q_delete_mid, hsize], fun hne => ?_⟩
  cases head with
  | none => simp [Queue] at hq; exact absurd hq hne
  | some hd =>
    have hr : Ring h hd xs := hq
    have hpos : 0 < xs.length := List.length_pos.mpr hne
    have hk : (xs.length - 1) / 2 < xs.length := by omega
    obtain ⟨P, s, S, hxs, hP, hs, herase⟩ := exists_split_at xs _ hk
    have hloop := q_delete_mid_loop_spec hr fuel 0 (by omega) (by omega)
    obtain ⟨x0, hx0⟩ : ∃ x0, (xs ++ [hd])[0]? = some x0 :=
      ⟨_, List.getElem?_eq_getElem (by simp)⟩
    have hfirst : h.next hd = some x0 := by
      rw [Ring_next_head hr, List.head?_eq_getElem?, hx0]
    have hn0 := Ring_next_getElem hr 0 x0 hx0 hpos
    have hmid : (xs ++ [hd])[(xs.length - 1) / 2]? = some s := by
      rw [List.getElem?_append_left hk]; exact hs
    rw [hx0, ← hn0, hmid] at hloop
    rw [herase]
    have hr2 : Ring h hd (P ++ s :: S) := hxs ▸ hr
    have hl := Ring_links hr2
    have hsp : s ≠ (hd :: P).getLast (by simp) := by
      intro e
      have hmem : s ∈ hd :: P := e ▸ List.getLast_mem _
      have hnd := hr2.1
      rw [← List.cons_append] at hnd
      exact (List.nodup_append.mp hnd).2.2 hmem (List.mem_cons_self _ _)
    refine ⟨q_release_element ((h.setNext ((hd :: P).getLast (by simp))
      (some ((S ++ [hd]).head (by simp)))).setPrev ((S ++ [hd]).head (by simp))
      (some ((hd :: P).getLast (by simp)))) s, s, hs, ?_, ?_, rfl, rfl⟩
    · have hn : ¬ xs.length = 0 := by omega
      simp only [q_delete_mid, hsize, Option.bind_eq_bind, Option.some_bind, hn, if_false,
        hfirst, hloop, hl.2, setNext_next, setNext_prev, Function.update_noteq hsp, hl.1]
      rfl
    · exact Ring_unlink hr2 (by simp [q_release_element, hl.1]) (by simp [q_release_element])

theorem getLast_cons_snoc (head : Nat) (P : List Nat) (a : Nat) :
    (head :: (P ++ [a])).getLast (by simp) = a := by
  rw [List.getLast_cons (by simp)]
  simp

theorem dedup_from_eq (v : Nat → Str) (a : Nat) (S : List Nat) :
    dedup_from v a S = a :: dedup_adj v (S.dropWhile (str_eq v a)) := by
  induction S with
  | nil => rfl
  | cons b rest ih =>
    by_cases hb : str_eq v a b = true
    · simp [dedup_from, hb, ih, List.dropWhile_cons]
    · simp [dedup_from, hb, List.dropWhile_cons, dedup_adj]

/-- The inner loop of `q_delete_dup` at the node `a`: the successors of `a`
whose string equals the string of `a` are unlinked and released. -/
theorem q_delete_dup_inner_spec (head : Nat) (S : List Nat) : ∀ (h : Heap) (P : List Nat)
    (a : Nat) (fuel : Nat), Ring h head (P ++ a :: S) → S.length < fuel →
    ∃ g, q_delete_dup_inner head fuel h a = some g ∧
      Ring g head (P ++ a :: S.dropWhile (str_eq h.value a)) ∧ g.value = h.value ∧
      (∀ x, g.live x = if x ∈ S.takeWhile (str_eq h.value a) then false else h.live x) := by
  induction S with
  | nil =>
    intro h P a fuel hr hf
    obtain ⟨fuel, rfl⟩ : ∃ k, fuel = k + 1 := ⟨fuel - 1, by simp at hf; omega⟩
    have hl := Ring_links hr
    exact ⟨h, by simp [q_delete_dup_inner, hl.1], by simpa using hr, rfl, by simp⟩
  | cons b rest ih =>
    intro h P a fuel hr hf
    obtain ⟨fuel, rfl⟩ : ∃ k, fuel = k + 1 := ⟨fuel - 1, by simp at hf; omega⟩
    have hl := Ring_links hr
    have hna : h.next a = some b := by simpa using hl.1
    have hbh : b ≠ head := by
      have := hr.1
      intro e; subst e
      simp at this
    have hr2 : Ring h head ((P ++ [a]) ++ b :: rest) := by simpa using hr
    have hl2 := Ring_links hr2
    rw [getLast_cons_snoc] at hl2
    by_cases heq : strcmp (h.value a) (h.value b) = 0
    · let g1 := q_release_element
        ((h.setPrev ((rest ++ [head]).head (by simp)) (some a)).setNext a
          (some ((rest ++ [head]).head (by simp)))) b
      have hr3 : Ring g1 head ((P ++ [a]) ++ rest) :=
        Ring_unlink hr2 (by simp [g1, q_release_element, getLast_cons_snoc])
          (by simp [g1, q_release_element, getLast_cons_snoc])
      obtain ⟨g, hg, hrg, hv, hl3⟩ := ih g1 P a fuel (by simpa using hr3) (by simp at hf; omega)
      have hval : g1.value = h.value := rfl
      rw [hval] at hrg hl3
      have hpb : str_eq h.value a b = true := by simp [str_eq, heq]
      refine ⟨g, ?_, ?_, hv.trans hval, ?_⟩
      · rw [← hg]
        simp [q_delete_dup_inner, hna, hbh, heq, list_del, hl2.1, hl2.2, g1]
      · simpa [List.dropWhile_cons, hpb] using hrg
      · intro x
        rw [hl3 x]
        simp only [List.takeWhile_cons, hpb, if_true, List.mem_cons]
        by_cases hxb : x = b
        · subst hxb; simp [g1, q_release_element]
        · simp [hxb, g1, q_release_element, Function.update_noteq hxb]
    · have hpb : str_eq h.value a b = false := by simp [str_eq, heq]
      refine ⟨h, ?_, ?_, rfl, ?_⟩
      · simp [q_delete_dup_inner, hna, hbh, heq]
      · simpa [List.dropWhile_cons, hpb] using hr
      · intro x; simp [List.takeWhile_cons, hpb]

theorem dedup_from_sublist (v : Nat → Str) (S : List Nat) : ∀ a : Nat,
    (dedup_from v a S).Sublist (a :: S) := by
  induction S with
  | nil => intro a; simp [dedup_from]
  | cons b rest ih =>
    intro a
    by_cases hb : str_eq v a b = true
    · simp only [dedup_from, hb, if_true]
      exact (ih a).trans ((List.sublist_cons_self b rest).cons₂ a)
    · simp only [dedup_from, hb]
      exact (ih b).cons₂ a

theorem dedup_from_head (v : Nat → Str) (S : List Nat) (a : Nat) : a ∈ dedup_from v a S := by
  rw [dedup_from_eq]; simp

/-- The outer loop of `q_delete_dup` from the node `a` on. -/
theorem q_delete_dup_loop_spec (head : Nat) (fuel : Nat) : ∀ (h : Heap) (P : List Nat) (a : Nat)
    (S : List Nat), Ring h head (P ++ a :: S) → S.length + 1 < fuel →
    ∃ g, q_delete_dup_loop head fuel h (some a) = some g ∧
      Ring g head (P ++ dedup_from h.value a S) ∧ g.value = h.value ∧
      (∀ x, g.live x = if x ∈ S ∧ x ∉ dedup_from h.value a S then false else h.live x) := by
  induction fuel with
  | zero => intro h P a S _ hf; omega
  | succ fuel ih =>
    intro h P a S hr hf
    have hnd := hr.1
    have hah : a ≠ head := by
      intro e; subst e; simp at hnd
    have haS : a ∉ S := by
      have h1 : (a :: S).Nodup := by
        have : (head :: (P ++ a :: S)).Nodup := hnd
        exact (List.nodup_append.mp (List.nodup_cons.mp this).2).2.1
      exact (List.nodup_cons.mp h1).1
    have hndS : S.Nodup := by
      have : (head :: (P ++ a :: S)).Nodup := hnd
      exact (List.nodup_cons.mp (List.nodup_append.mp (List.nodup_cons.mp this).2).2.1).2
    obtain ⟨g1, hg1, hr1, hv1, hl1⟩ :=
      q_delete_dup_inner_spec head S h P a fuel hr (by omega)
    have hsplit : S.takeWhile (str_eq h.value a) ++ S.dropWhile (str_eq h.value a) = S :=
      List.takeWhile_append_dropWhile _ _
    have hlinks := Ring_links hr1
    rw [dedup_from_eq]
    cases hS : S.dropWhile (str_eq h.value a) with
    | nil =>
      rw [hS] at hr1 hlinks hsplit
      obtain ⟨fuel, rfl⟩ : ∃ k, fuel = k + 1 := ⟨fuel - 1, by omega⟩
      have hn : g1.next a = some head := by simpa using hlinks.1
      refine ⟨g1, ?_, by simpa [dedup_adj] using hr1, hv1, ?_⟩
      · simp [q_delete_dup_loop, hah, hg1, hn]
      · intro x
        rw [hl1 x]
        simp only [List.append_nil] at hsplit
        rw [hsplit]
        by_cases hx : x ∈ S
        · have hxa : x ≠ a := fun e => haS (e ▸ hx)
          simp [hx, dedup_adj, hxa]
        · simp [hx]
    | cons b rest =>
      rw [hS] at hr1 hlinks hsplit
      have hn : g1.next a = some b := by simpa using hlinks.1
      have hlen : rest.length + 1 ≤ S.length := by
        have := congrArg List.length hsplit
        simp at this; omega
      have hr2 : Ring g1 head ((P ++ [a]) ++ b :: rest) := by simpa using hr1
      obtain ⟨g, hg, hrg, hv, hlg⟩ := ih g1 (P ++ [a]) b rest hr2 (by omega)
      rw [hv1] at hrg hlg
      refine ⟨g, ?_, by simpa [dedup_adj] using hrg, hv.trans hv1, ?_⟩
      · rw [← hg]
        simp [q_delete_dup_loop, hah, hg1, hn]
      · intro x
        rw [hlg x, hl1 x]
        have hsub := dedup_from_sublist h.value rest b
        have hndsplit : (S.takeWhile (str_eq h.value a) ++ b :: rest).Nodup := by
          rw [hsplit]; exact hndS
        have hdisj := (List.nodup_append.mp hndsplit).2.2
        have hbmem := dedup_from_head h.value rest b
        simp only [dedup_adj]
        by_cases hxT : x ∈ S.takeWhile (str_eq h.value a)
        · have hxS : x ∈ S := by rw [← hsplit]; exact List.mem_append_left _ hxT
          have hxa : x ≠ a := fun e => haS (e ▸ hxS)
          have hxd : x ∉ dedup_from h.value b rest := fun e => hdisj hxT (hsub.subset e)
          simp [hxT, hxS, hxa, hxd]
        · by_cases hxr : x ∈ rest ∧ x ∉ dedup_from h.value b rest
          · have hxS : x ∈ S := by
              rw [← hsplit]; exact List.mem_append_right _ (List.mem_cons_of_mem _ hxr.1)
            have hxa : x ≠ a := fun e => haS (e ▸ hxS)
            simp [hxT, hxr, hxS, hxa]
          · have hgoal : ¬ (x ∈ S ∧ x ∉ a :: dedup_from h.value b rest) := by
              rintro ⟨hxS, hxn⟩
              rw [← hsplit] at hxS
              rcases List.mem_append.mp hxS with e | e
              · exact hxT e
              · rcases List.mem_cons.mp e with e | e
                · exact hxn (List.mem_cons_of_mem _ (e ▸ hbmem))
                · exact hxr ⟨e, fun e2 => hxn (List.mem_cons_of_mem _ e2)⟩
            simp only [hxT, hxr, hgoal, if_false]

theorem q_delete_dup_spec (fuel : Nat) (h : Heap) (head : Ptr) (xs : List Nat)
    (hq : Queue h head xs) (hf : xs.length < fuel) :
    ∃ g, q_delete_dup fuel h head = some (g, decide (xs ≠ [])) ∧
      Queue g head (dedup_adj h.value xs) ∧ g.value = h.value ∧
      (∀ x, g.live x = if x ∈ xs ∧ x ∉ dedup_adj h.value xs then false else h.live x) ∧
      (xs = [] → g = h) := by
  have hsize := q_size_queue hq fuel hf
  cases xs with
  | nil =>
    exact ⟨h, by simp [q_delete_dup, hsize], by simpa [dedup_adj] using hq, rfl, by simp,
      fun _ => rfl⟩
  | cons a S =>
    cases head with
    | none => simp [Queue] at hq
    | some hd =>
      have hr : Ring h hd ([] ++ a :: S) := hq
      obtain ⟨g, hg, hrg, hv, hl⟩ := q_delete_dup_loop_spec hd fuel h [] a S hr (by
        simp at hf; omega)
      have hna : h.next hd = some a := hr.2.1.1
      have haS : a ∉ S := by
        have := hr.1; simp at this; tauto
      refine ⟨g, ?_, by simpa [dedup_adj] using hrg, hv, ?_, fun e => by simp at e⟩
      · simp [q_delete_dup, hsize, hna, hg]
      · intro x
        rw [hl x]
        simp only [dedup_adj, List.mem_cons]
        by_cases hxa : x = a
        · subst hxa
          simp [haS, dedup_from_head]
        · simp [hxa]

/-- C12: on the empty queue made by `q_new`, an existing queue, `q_delete_dup`
returns `false`; it returns `true` on the queue "a", "a", "b" and `false` on an
absent queue. -/
theorem q_delete_dup_empty_false :
    Queue (q_new blank (some 0)).1 (some 0) [] ∧
    (q_delete_dup 1 (q_new blank (some 0)).1 (some 0)).map Prod.snd = some false ∧
    (q_delete_dup 4 aab_queue (some 0)).map Prod.snd = some true ∧
    (q_delete_dup 1 blank none).map Prod.snd = some false :=
  ⟨by decide, by decide, by decide, by decide⟩

/-- C17: on the sorted queue "a", "a", "b" at the nodes 1, 2, 3, `q_delete_dup`
leaves the nodes 1 and 3, with the strings "a" and "b": one node of the
duplicated string "a" is kept, although the nodes whose string occurs once in
the input are the node 3 alone. -/
theorem q_delete_dup_keeps_one :
    Queue aab_queue (some 0) [1, 2, 3] ∧
    [1, 2, 3].Pairwise (fun a b => strcmp (aab_queue.value a) (aab_queue.value b) ≤ 0) ∧
    (q_delete_dup 4 aab_queue (some 0)).bind (fun r => traverse 4 r.1 0) = some [1, 3] ∧
    (q_delete_dup 4 aab_queue (some 0)).bind (fun r => strings 4 r.1 0)
      = some [[97], [98]] ∧
    [1, 2, 3].filter (fun x =>
      ([1, 2, 3].filter (fun y => str_eq aab_queue.value x y)).length = 1) = [3] :=
  ⟨by decide, by decide, by decide, by decide, by decide⟩

theorem Heap_eq_of_fields {g h : Heap} (hn : g.next = h.next) (hp : g.prev = h.prev)
    (hv : g.value = h.value) (hl : g.live = h.live) : g = h := by
  cases g; cases h
  simp only [Heap.mk.injEq]
  exact ⟨hn, hp, hv, hl⟩

theorem Path_determines {f g : Nat → Ptr} {a : Nat} {xs : List Nat} {b : Ptr}
    (hf : Path f a xs b) (hg : Path g a xs b) : ∀ x ∈ a :: xs, g x = f x := by
  induction xs generalizing a with
  | nil =>
    intro x hx
    simp at hx; subst hx
    simp only [Path] at hf hg
    rw [hf, hg]
  | cons y ys ih =>
    intro x hx
    rcases List.mem_cons.mp hx with rfl | hx2
    · rw [hf.1, hg.1]
    · exact ih hf.2 hg.2 x hx2

theorem Back_determines {f g : Nat → Ptr} {a : Nat} {xs : List Nat}
    (hf : Back f a xs) (hg : Back g a xs) : ∀ x ∈ xs, g x = f x := by
  induction xs generalizing a with
  | nil => intro x hx; simp at hx
  | cons y ys ih =>
    intro x hx
    rcases List.mem_cons.mp hx with rfl | hx2
    · rw [hf.1, hg.1]
    · exact ih hf.2 hg.2 x hx2

/-- Two heaps that hold the same ring have the same links on its nodes. -/
theorem Ring_determines {h g : Heap} {head : Nat} {xs : List Nat} (hh : Ring h head xs)
    (hg : Ring g head xs) : ∀ x ∈ head :: xs, g.next x = h.next x ∧ g.prev x = h.prev x := by
  intro x hx
  refine ⟨Path_determines hh.2.1 hg.2.1 x hx, Back_determines hh.2.2 hg.2.2 x ?_⟩
  rcases List.mem_cons.mp hx with rfl | hx2
  · simp
  · exact List.mem_append_left _ hx2

/-- A heap that holds the same ring as `h` and agrees with `h` everywhere else
is `h`. -/
theorem Heap_eq_of_ring {h g : Heap} {head : Nat} {xs : List Nat} (hh : Ring h head xs)
    (hg : Ring g head xs) (hn : ∀ x, x ∉ head :: xs → g.next x = h.next x)
    (hp : ∀ x, x ∉ head :: xs → g.prev x = h.prev x) (hv : g.value = h.value)
    (hl : g.live = h.live) : g = h := by
  refine Heap_eq_of_fields ?_ ?_ hv hl
  · funext x
    by_cases hx : x ∈ head :: xs
    · exact (Ring_determines hh hg x hx).1
    · exact hn x hx
  · funext x
    by_cases hx : x ∈ head :: xs
    · exact (Ring_determines hh hg x hx).2
    · exact hp x hx

theorem q_reverse_twice (fuel : Nat) (h : Heap) (head : Ptr) (xs : List Nat)
    (hq : Queue h head xs) (hf : xs.length < fuel) :
    ∃ g1, q_reverse fuel h head = some g1 ∧ Queue g1 head xs.reverse ∧
      q_reverse fuel g1 head = some h := by
  by_cases hlen : xs.length ≤ 1
  · obtain ⟨g1, hg1, hq1, -, -, hsmall⟩ := q_reverse_queue fuel h head xs hq hf
    have e := hsmall hlen
    subst e
    exact ⟨g1, hg1, hq1, hg1⟩
  · cases head with
    | none => simp [Queue] at hq; simp [hq] at hlen
    | some hd =>
      have hr : Ring h hd xs := hq
      obtain ⟨g1, hg1, hr1, hn1, hp1, hv1, hl1⟩ := q_reverse_ring fuel h hd xs hr (by omega) hf
      obtain ⟨g2, hg2, hr2, hn2, hp2, hv2, hl2⟩ :=
        q_reverse_ring fuel g1 hd xs.reverse hr1 (by simp; omega) (by simpa using hf)
      rw [List.reverse_reverse] at hr2
      have hmem : ∀ x, x ∉ hd :: xs → x ∉ hd :: xs.reverse := by
        intro x hx; simpa using hx
      have e : g2 = h := Heap_eq_of_ring hr hr2
        (fun x hx => (hn2 x (hmem x hx)).trans (hn1 x hx))
        (fun x hx => (hp2 x (hmem x hx)).trans (hp1 x hx))
        (hv2.trans hv1) (hl2.trans hl1)
      rw [e] at hg2
      exact ⟨g1, hg1, hr1, hg2⟩

/-- C14: on every queue `q_reverse` applied twice gives back the heap of
before the first call: the traversal, and every `next` and `prev` link, every
string and every allocation, are as they were. -/
theorem q_reverse_involutive (fuel : Nat) (h : Heap) (head : Ptr) (xs : List Nat)
    (hq : Queue h head xs) (hf : xs.length < fuel) :
    ∃ g1 g2, q_reverse fuel h head = some g1 ∧ Queue g1 head xs.reverse ∧
      q_reverse fuel g1 head = some g2 ∧ Queue g2 head xs ∧
      g2.next = h.next ∧ g2.prev = h.prev ∧ g2 = h := by
  obtain ⟨g1, hg1, hq1, hg2⟩ := q_reverse_twice fuel h head xs hq hf
  exact ⟨g1, h, hg1, hq1, hg2, hq, rfl, rfl, rfl⟩

/-- C14, on the queue "banana", "apple", "cherry" at the nodes 1, 2, 3. -/
theorem q_reverse_involutive_witness :
    Queue fruit_queue (some 0) [1, 2, 3] ∧
    (∃ g1 g2, q_reverse 4 fruit_queue (some 0) = some g1 ∧
      Queue g1 (some 0) [1, 2, 3].reverse ∧
      q_reverse 4 g1 (some 0) = some g2 ∧ Queue g2 (some 0) [1, 2, 3] ∧
      g2.next = fruit_queue.next ∧ g2.prev = fruit_queue.prev ∧ g2 = fruit_queue) ∧
    ((q_reverse 4 fruit_queue (some 0)).bind (fun g => q_reverse 4 g (some 0))).bind
      (fun g => traverse 4 g 0) = some [1, 2, 3] :=
  ⟨by decide, q_reverse_involutive 4 fruit_queue (some 0) [1, 2, 3] (by decide) (by decide),
    by decide⟩

theorem q_sort_of_sorted (fuel : Nat) (h : Heap) (head : Ptr) (xs : List Nat)
    (hq : Queue h head xs)
    (hs : xs.Pairwise (fun a b => strcmp (h.value a) (h.value b) ≤ 0))
    (hf : xs.length < fuel) : q_sort fuel h head = some h := by
  have hsort : xs.mergeSort (str_le h.value) = xs :=
    List.mergeSort_of_sorted (hs.imp (fun hab => by simpa [str_le] using hab))
  by_cases hlen : xs.length ≤ 1
  · obtain ⟨g, hg, -, -, -, hsmall⟩ := q_sort_queue fuel h head xs hq hf
    rw [hg, hsmall hlen]
  · cases head with
    | none => simp [Queue] at hq; simp [hq] at hlen
    | some hd =>
      have hr : Ring h hd xs := hq
      obtain ⟨g, hg, hrg, hn, hp, hv, hl⟩ := q_sort_ring fuel h hd xs hr (by omega) hf
      rw [hsort] at hrg
      rw [hg, Heap_eq_of_ring hr hrg hn hp hv hl]

/-- C15: `q_sort` on a queue whose traversal is already ascending for `strcmp`
gives back the heap it was given, so the order of the elements is exactly
unchanged; and on every queue a second `q_sort` changes nothing of what the
first one left. -/
theorem q_sort_idempotent (fuel : Nat) (h : Heap) (head : Ptr) (xs : List Nat)
    (hq : Queue h head xs) (hf : xs.length < fuel) :
    (xs.Pairwise (fun a b => strcmp (h.value a) (h.value b) ≤ 0) →
      q_sort fuel h head = some h) ∧
    (∃ g ys, q_sort fuel h head = some g ∧ Queue g head ys ∧
      q_sort fuel g head = some g) := by
  refine ⟨fun hs => q_sort_of_sorted fuel h head xs hq hs hf, ?_⟩
  obtain ⟨g, hg, hqg, hv, -, -⟩ := q_sort_queue fuel h head xs hq hf
  have hsorted : (xs.mergeSort (str_le h.value)).Pairwise
      (fun a b => strcmp (g.value a) (g.value b) ≤ 0) := by
    have := List.sorted_mergeSort (str_le_trans h.value) (str_le_total h.value) xs
    rw [hv]
    exact this.imp (fun hab => by simpa [str_le] using hab)
  exact ⟨g, _, hg, hqg, q_sort_of_sorted fuel g head _ hqg hsorted (by
    rw [List.length_mergeSort]; exact hf)⟩

/-- C15, on the ascending queue "a", "a", "b", which `q_sort` gives back as it
is, and on the queue "banana", "apple", "cherry": sorted once it is "apple",
"banana", "cherry" (nodes 2, 1, 3), and sorted again it is the same. -/
theorem q_sort_idempotent_witness :
    Queue aab_queue (some 0) [1, 2, 3] ∧
    ([1, 2, 3] : List Nat).Pairwise
      (fun a b => strcmp (aab_queue.value a) (aab_queue.value b) ≤ 0) ∧
    q_sort 4 aab_queue (some 0) = some aab_queue ∧
    Queue fruit_queue (some 0) [1, 2, 3] ∧
    (∃ g ys, q_sort 4 fruit_queue (some 0) = some g ∧ Queue g (some 0) ys ∧
      q_sort 4 g (some 0) = some g) ∧
    (q_sort 4 fruit_queue (some 0)).bind (fun g => traverse 4 g 0) = some [2, 1, 3] ∧
    ((q_sort 4 fruit_queue (some 0)).bind (fun g => q_sort 4 g (some 0))).bind
      (fun g => traverse 4 g 0) = some [2, 1, 3] :=
  ⟨by decide, by decide,
    (q_sort_idempotent 4 aab_queue (some 0) [1, 2, 3] (by decide) (by decide)).1 (by decide),
    by decide,
    (q_sort_idempotent 4 fruit_queue (some 0) [1, 2, 3] (by decide) (by decide)).2,
    by decide, by decide⟩

theorem Path_last {f : Nat → Ptr} {a : Nat} {P : List Nat} {b : Ptr} (hp : Path f a P b) :
    f ((a :: P).getLast (by simp)) = b := by
  induction P generalizing a with
  | nil => simpa [Path] using hp
  | cons p P ih =>
    rw [List.getLast_cons (by simp)]
    exact ih hp.2

theorem Back_of_Path {f g : Nat → Ptr} {a : Nat} {xs : List Nat} {b : Nat}
    (hp : Path f a xs (some b)) (hc : ∀ n ∈ a :: xs, (f n).bind g = some n) :
    Back g a (xs ++ [b]) := by
  induction xs generalizing a with
  | nil =>
    simp only [Path] at hp
    have := hc a (by simp)
    rw [hp] at this
    simpa [Back] using this
  | cons x rest ih =>
    have := hc a (by simp)
    rw [hp.1] at this
    exact ⟨by simpa using this, ih hp.2 (fun n hn => hc n (List.mem_cons_of_mem _ hn))⟩

theorem Back_pred_mem {f : Nat → Ptr} {a : Nat} {l : List Nat} (hb : Back f a l) :
    ∀ x ∈ l, ∃ y ∈ a :: l, f x = some y := by
  induction l generalizing a with
  | nil => intro x hx; simp at hx
  | cons b rest ih =>
    intro x hx
    rcases List.mem_cons.mp hx with rfl | hx2
    · exact ⟨a, by simp, hb.1⟩
    · obtain ⟨y, hy, he⟩ := ih hb.2 x hx2
      exact ⟨y, List.mem_cons_of_mem _ hy, he⟩

theorem Nodup_of_Back {f : Nat → Ptr} {a : Nat} {l : List Nat} (hb : Back f a l)
    (ha : a ∉ l) : (a :: l).Nodup := by
  induction l generalizing a with
  | nil => simp
  | cons x rest ih =>
    have hx : x ∉ rest := by
      intro hx
      obtain ⟨y, hy, he⟩ := Back_pred_mem hb.2 x hx
      rw [hb.1] at he
      have : a = y := by simpa using he
      exact ha (this ▸ hy)
    exact List.nodup_cons.mpr ⟨ha, ih hb.2 hx⟩

/-- The two descriptions of a well-formed queue agree. -/
theorem Circular_iff_Ring (h : Heap) (head : Nat) (xs : List Nat) :
    Circular h head xs ↔ Ring h head xs := by
  constructor
  · rintro ⟨hh, hp, hc⟩
    have hb : Back h.prev head (xs ++ [head]) := Back_of_Path hp (fun n hn => (hc n hn).1)
    exact ⟨Nodup_of_Back (Back_append.mp hb).1 hh, hp, hb⟩
  · intro hr
    refine ⟨(List.nodup_cons.mp hr.1).1, hr.2.1, ?_⟩
    intro n hn
    rcases List.mem_cons.mp hn with rfl | hn2
    · have hnext := Ring_next_head hr
      have hprev := Ring_prev_head hr
      have hlast := Path_last hr.2.1
      obtain ⟨m, T, hmT⟩ : ∃ m T, xs ++ [n] = m :: T := by
        cases xs with
        | nil => exact ⟨n, [], rfl⟩
        | cons y T => exact ⟨y, T ++ [n], rfl⟩
      have hb := hr.2.2
      rw [hmT] at hb hnext
      refine ⟨?_, ?_⟩
      · rw [hnext]; simpa using hb.1
      · rw [hprev]; simpa using hlast
    · obtain ⟨P, S, rfl⟩ := List.append_of_mem hn2
      have hl := Ring_links hr
      have hlast := Path_last (Path_append.mp hr.2.1).1
      have hb := hr.2.2
      rw [List.append_assoc, Back_append] at hb
      have hb2 : Back h.prev n (S ++ [head]) := hb.2.2
      obtain ⟨m, T, hmT⟩ : ∃ m T, S ++ [head] = m :: T := by
        cases S with
        | nil => exact ⟨head, [], rfl⟩
        | cons y T => exact ⟨y, T ++ [head], rfl⟩
      have hm : (S ++ [head]).head (by simp) = m := by simp [hmT]
      rw [hmT] at hb2
      refine ⟨?_, ?_⟩
      · rw [hl.1, hm]; simpa using hb2.1
      · rw [hl.2]; simpa using hlast

theorem q_insert_head_ring (h : Heap) (head : Nat) (xs : List Nat) (s : Str) (m : Ptr)
    (sd : Bool) (hr : Ring h head xs) (hm : ∀ a, m = some a → a ∉ head :: xs) :
    ∃ g ok ys, q_insert_head h (some head) s m sd = some (g, ok) ∧ Ring g head ys := by
  cases m with
  | none => exact ⟨h, false, xs, by simp [q_insert_head], hr⟩
  | some a =>
    cases sd with
    | false =>
      exact ⟨(h.setLive a true).setLive a false, false, xs, by simp [q_insert_head],
        Ring_congr rfl rfl hr⟩
    | true =>
      obtain ⟨g, hg, hrg, -⟩ := q_insert_head_spec h head xs s a hr (hm a rfl)
      exact ⟨g, true, _, hg, hrg⟩

theorem q_insert_tail_ring (h : Heap) (head : Nat) (xs : List Nat) (s : Str) (m : Ptr)
    (sd : Bool) (hr : Ring h head xs) (hm : ∀ a, m = some a → a ∉ head :: xs) :
    ∃ g ok ys, q_insert_tail h (some head) s m sd = some (g, ok) ∧ Ring g head ys := by
  cases m with
  | none => exact ⟨h, false, xs, by simp [q_insert_tail], hr⟩
  | some a =>
    cases sd with
    | false =>
      exact ⟨(h.setLive a true).setLive a false, false, xs, by simp [q_insert_tail],
        Ring_congr rfl rfl hr⟩
    | true =>
      obtain ⟨g, hg, hrg, -⟩ := q_insert_tail_spec h head xs s a hr (hm a rfl)
      exact ⟨g, true, _, hg, hrg⟩

/-- C18: if the heap holds at `head` a circular doubly-linked list (following
`next` from the sentinel returns to the sentinel, and `n->next->prev == n` and
`n->prev->next == n` for every node, the sentinel included), then each of
`q_insert_head`, `q_insert_tail`, `q_remove_head`, `q_remove_tail`,
`q_delete_mid`, `q_delete_dup`, `q_swap`, `q_reverse` and `q_sort` returns and
the heap holds at `head` such a list again, whatever the call returns; the
insertions are given by `malloc` either `NULL` or a node that is not in the
list. -/
theorem ops_keep_circular (fuel : Nat) (h : Heap) (head : Nat) (xs : List Nat)
    (hc : Circular h head xs) (hf : xs.length < fuel) :
    (∀ s m sd, (∀ a, m = some a → a ∉ head :: xs) →
      ∃ g ok ys, q_insert_head h (some head) s m sd = some (g, ok) ∧ Circular g head ys) ∧
    (∀ s m sd, (∀ a, m = some a → a ∉ head :: xs) →
      ∃ g ok ys, q_insert_tail h (some head) s m sd = some (g, ok) ∧ Circular g head ys) ∧
    (∀ sp bufsize junk, ∃ g r b ys,
      q_remove_head fuel h (some head) sp bufsize junk = some (g, r, b) ∧ Circular g head ys) ∧
    (∀ sp bufsize junk, ∃ g r b ys,
      q_remove_tail fuel h (some head) sp bufsize junk = some (g, r, b) ∧ Circular g head ys) ∧
    (∃ g ok ys, q_delete_mid fuel h (some head) = some (g, ok) ∧ Circular g head ys) ∧
    (∃ g ok ys, q_delete_dup fuel h (some head) = some (g, ok) ∧ Circular g head ys) ∧
    (∃ g ys, q_swap fuel h (some head) = some g ∧ Circular g head ys) ∧
    (∃ g ys, q_reverse fuel h (some head) = some g ∧ Circular g head ys) ∧
    (∃ g ys, q_sort fuel h (some head) = some g ∧ Circular g head ys) := by
  have hr : Ring h head xs := (Circular_iff_Ring h head xs).mp hc
  have hq : Queue h (some head) xs := hr
  refine ⟨?_, ?_, ?_, ?_, ?_, ?_, ?_, ?_, ?_⟩
  · intro s m sd hm
    obtain ⟨g, ok, ys, hg, hrg⟩ := q_insert_head_ring h head xs s m sd hr hm
    exact ⟨g, ok, ys, hg, (Circular_iff_Ring g head ys).mpr hrg⟩
  · intro s m sd hm
    obtain ⟨g, ok, ys, hg, hrg⟩ := q_insert_tail_ring h head xs s m sd hr hm
    exact ⟨g, ok, ys, hg, (Circular_iff_Ring g head ys).mpr hrg⟩
  · intro sp bufsize junk
    obtain ⟨g, hg, hqg, -⟩ := q_remove_head_spec fuel h (some head) xs sp bufsize junk hq hf
    exact ⟨g, _, _, _, hg, (Circular_iff_Ring g head _).mpr hqg⟩
  · intro sp bufsize junk
    obtain ⟨g, hg, hqg, -⟩ := q_remove_tail_spec fuel h (some head) xs sp bufsize junk hq hf
    exact ⟨g, _, _, _, hg, (Circular_iff_Ring g head _).mpr hqg⟩
  · obtain ⟨h1, h2⟩ := q_delete_mid_spec fuel h (some head) xs hq hf
    by_cases hx : xs = []
    · exact ⟨h, false, xs, h1 hx, hc⟩
    · obtain ⟨g, s, -, hg, hqg, -⟩ := h2 hx
      exact ⟨g, true, _, hg, (Circular_iff_Ring g head _).mpr hqg⟩
  · obtain ⟨g, hg, hqg, -⟩ := q_delete_dup_spec fuel h (some head) xs hq hf
    exact ⟨g, _, _, hg, (Circular_iff_Ring g head _).mpr hqg⟩
  · obtain ⟨g, hg, hqg, -⟩ := q_swap_queue fuel h (some head) xs hq hf
    exact ⟨g, _, hg, (Circular_iff_Ring g head _).mpr hqg⟩
  · obtain ⟨g, hg, hqg, -⟩ := q_reverse_queue fuel h (some head) xs hq hf
    exact ⟨g, _, hg, (Circular_iff_Ring g head _).mpr hqg⟩
  · obtain ⟨g, hg, hqg, -⟩ := q_sort_queue fuel h (some head) xs hq hf
    exact ⟨g, _, hg, (Circular_iff_Ring g head _).mpr hqg⟩

/-- C18, on the queue "banana", "apple", "cherry" at the nodes 1, 2, 3. -/
theorem ops_keep_circular_witness :
    Circular fruit_queue 0 [1, 2, 3] ∧
    ((∀ s m sd, (∀ a, m = some a → a ∉ [0, 1, 2, 3]) →
      ∃ g ok ys, q_insert_head fruit_queue (some 0) s m sd = some (g, ok) ∧
        Circular g 0 ys) ∧
    (∀ s m sd, (∀ a, m = some a → a ∉ [0, 1, 2, 3]) →
      ∃ g ok ys, q_insert_tail fruit_queue (some 0) s m sd = some (g, ok) ∧
        Circular g 0 ys) ∧
    (∀ sp bufsize junk, ∃ g r b ys,
      q_remove_head 4 fruit_queue (some 0) sp bufsize junk = some (g, r, b) ∧
        Circular g 0 ys) ∧
    (∀ sp bufsize junk, ∃ g r b ys,
      q_remove_tail 4 fruit_queue (some 0) sp bufsize junk = some (g, r, b) ∧
        Circular g 0 ys) ∧
    (∃ g ok ys, q_delete_mid 4 fruit_queue (some 0) = some (g, ok) ∧ Circular g 0 ys) ∧
    (∃ g ok ys, q_delete_dup 4 fruit_queue (some 0) = some (g, ok) ∧ Circular g 0 ys) ∧
    (∃ g ys, q_swap 4 fruit_queue (some 0) = some g ∧ Circular g 0 ys) ∧
    (∃ g ys, q_reverse 4 fruit_queue (some 0) = some g ∧ Circular g 0 ys) ∧
    (∃ g ys, q_sort 4 fruit_queue (some 0) = some g ∧ Circular g 0 ys)) :=
  ⟨(Circular_iff_Ring fruit_queue 0 [1, 2, 3]).mpr (by decide),
    ops_keep_circular 4 fruit_queue 0 [1, 2, 3]
      ((Circular_iff_Ring fruit_queue 0 [1, 2, 3]).mpr (by decide)) (by decide)⟩

/-- The loop of `merge` ends only when one of its two lists is exhausted. -/
theorem merge_loop_exit (fuel : Nat) : ∀ (h : Heap) (p1 p2 : Ptr) (t : Nat)
    (r : Heap × Ptr × Ptr × Nat), merge_loop fuel h p1 p2 t = some r →
    r.2.1 = none ∨ r.2.2.1 = none := by
  induction fuel with
  | zero => intro h p1 p2 t r hr; simp [merge_loop] at hr
  | succ fuel ih =>
    intro h p1 p2 t r hr
    cases p1 with
    | none =>
      simp only [merge_loop, Option.some.injEq] at hr
      subst hr; exact Or.inl rfl
    | some a =>
      cases p2 with
      | none =>
        simp only [merge_loop, Option.some.injEq] at hr
        subst hr; exact Or.inr rfl
      | some b =>
        simp only [merge_loop] at hr
        split at hr
        · simp only [setNext_next, setPrev_next, Function.update_same, Option.bind_eq_bind,
            Option.some_bind] at hr
          exact ih _ _ _ _ r hr
        · simp only [setNext_next, setPrev_next, Function.update_same, Option.bind_eq_bind,
            Option.some_bind] at hr
          exact ih _ _ _ _ r hr

theorem merge_finish_node (r : Heap × Ptr × Ptr × Nat) (g : Heap)
    (hr : merge_finish r = some g) : (if r.2.2.1 = none then r.2.1 else r.2.2.1) ≠ none := by
  intro hn
  simp [merge_finish, hn] at hr

/-- After the loop of `merge` on two non-empty lists exactly one of them is
exhausted, and the last statements of `merge` find a node to append. -/
theorem merge_loop_one_left (fuel : Nat) (h : Heap) (l1 l2 : List Nat) (t : Nat)
    (hnd : (t :: (l1 ++ l2)).Nodup) (hc1 : NullChain h l1) (hc2 : NullChain h l2)
    (hne : l1 ≠ [] ∨ l2 ≠ []) (hf : l1.length + l2.length < fuel) :
    ∃ g p1 p2 t2, merge_loop fuel h l1.head? l2.head? t = some (g, p1, p2, t2) ∧
      ((p1 = none ∧ p2 ≠ none) ∨ (p1 ≠ none ∧ p2 = none)) ∧
      (merge_finish (g, p1, p2, t2)).isSome = true := by
  obtain ⟨g2, hg2, -⟩ := merge_loop_spec fuel h l1 l2 t hnd hc1 hc2 hne hf
  obtain ⟨r, hr, hfin⟩ := Option.bind_eq_some.mp hg2
  obtain ⟨g, p1, p2, t2⟩ := r
  have hex := merge_loop_exit fuel h _ _ t _ hr
  have hnode := merge_finish_node _ _ hfin
  refine ⟨g, p1, p2, t2, hr, ?_, by rw [hfin]; rfl⟩
  simp only at hex hnode
  rcases hex with e | e
  · subst e
    by_cases h2 : p2 = none
    · subst h2; simp at hnode
    · exact Or.inl ⟨rfl, h2⟩
  · subst e
    refine Or.inr ⟨?_, rfl⟩
    simpa using hnode

/-- The slow/fast loop of `merge_sort` on a list of `n ≥ 2` nodes stops at the
node of index `(n - 1) / 2`, and the cut after it leaves two `NULL`-terminated
lists: the first `(n + 1) / 2` nodes and the other `n / 2`. -/
theorem merge_sort_cut (fuel : Nat) (h : Heap) (a : Nat) (xs : List Nat)
    (hc : NullChain h (a :: xs)) (hnd : (a :: xs).Nodup) (hne : xs ≠ [])
    (hf : (a :: xs).length ≤ fuel) :
    ∃ s tmp, merge_sort_split h fuel (some a) (h.next a) = some (some s) ∧
      h.next s = some tmp ∧
      NullChain ((h.setPrev tmp none).setNext s none)
        ((a :: xs).take (((a :: xs).length + 1) / 2)) ∧
      NullChain ((h.setPrev tmp none).setNext s none)
        ((a :: xs).drop (((a :: xs).length + 1) / 2)) := by
  obtain ⟨P, t, S, rfl, hP⟩ := exists_split_half xs hne
  have hk : P.length = (P.length + S.length + 1) / 2 := by
    simp at hP; omega
  have hlen : (a :: (P ++ t :: S)).length = P.length + S.length + 2 := by
    simp; omega
  have hF : t ∉ a :: P ∧ t ∉ S ∧ (∀ x ∈ a :: P, x ∉ t :: S) ∧ (a :: P).Nodup := by
    have := hnd
    rw [← List.cons_append, List.nodup_append] at this
    obtain ⟨h1, h2, h3⟩ := this
    exact ⟨fun e => h3 e (by simp), (List.nodup_cons.mp h2).1, fun x hx => h3 hx, h1⟩
  obtain ⟨htP, htS, hdisj, hndP⟩ := hF
  have hs_mem : (a :: P).getLast (by simp) ∈ a :: P := List.getLast_mem _
  have hsS : (a :: P).getLast (by simp) ∉ t :: S := hdisj _ hs_mem
  obtain ⟨hpn, hpb⟩ := hc
  have hpn2 := Path_append.mp hpn
  have hpb2 := Back_append.mp hpb
  have hsplit : merge_sort_split h fuel (some a) (h.next a)
      = some (some ((a :: P).getLast (by simp))) := by
    have h0 := merge_sort_split_spec hpn fuel 0 (by simp) (by simpa using hf)
    have e1 : (a :: (P ++ t :: S))[0]? = some a := by simp
    have e2 : (a :: (P ++ t :: S))[2 * 0 + 1]? = h.next a :=
      (Path_null_getElem hpn 0 a (by simp)).symm
    have e3 : (a :: (P ++ t :: S))[((a :: (P ++ t :: S)).length - 1) / 2]?
        = some ((a :: P).getLast (by simp)) := by
      have : ((a :: (P ++ t :: S)).length - 1) / 2 = P.length := by
        rw [hlen]; omega
      rw [this, ← List.cons_append, List.getElem?_append_left (by simp),
        List.getLast_eq_getElem]
      simp
    rw [e1, e2, e3] at h0
    exact h0
  have hnext_s : h.next ((a :: P).getLast (by simp)) = some t := Path_last hpn2.1
  have hcut : ((a :: (P ++ t :: S)).length + 1) / 2 = (a :: P).length := by
    rw [hlen]; simp; omega
  have e1 : (a :: (P ++ t :: S)).take (a :: P).length = a :: P := by
    rw [← List.cons_append, List.take_left]
  have e2 : (a :: (P ++ t :: S)).drop (a :: P).length = t :: S := by
    rw [← List.cons_append, List.drop_left]
  refine ⟨_, t, hsplit, hnext_s, ?_, ?_⟩
  · rw [hcut, e1]
    exact ⟨Path_set_last hpn2.1 hndP,
      Back_update (fun e => htP (List.mem_cons_of_mem _ e)) hpb2.1⟩
  · rw [hcut, e2]
    exact ⟨Path_update hsS hpn2.2, Back_update htS hpb2.2.2⟩

/-- C20: on a `NULL`-terminated list of `n ≥ 2` nodes the slow/fast loop of
`merge_sort` returns a node `s` with a successor `tmp`, and the cut at `s`
leaves two `NULL`-terminated lists, the first `(n + 1) / 2` nodes and the last
`n / 2`, both non-empty and shorter than `n`; `merge_sort` returns.  On two
non-empty lists the loop of `merge`, entered as `merge` enters it, ends with
exactly one of `list1`, `list2` equal to `NULL`, and the statements after the
loop find a node to append. -/
theorem merge_sort_parts (fuel : Nat) (h : Heap) (a : Nat) (xs : List Nat)
    (hc : NullChain h (a :: xs)) (hnd : (a :: xs).Nodup) (hne : xs ≠ [])
    (hf : (a :: xs).length < fuel)
    (k : Heap) (p q : Nat) (ps qs : List Nat) (hp : NullChain k (p :: ps))
    (hq : NullChain k (q :: qs)) (hpq : (p :: ps ++ q :: qs).Nodup)
    (hfk : ps.length + qs.length + 1 < fuel) :
    (∃ s tmp, merge_sort_split h fuel (some a) (h.next a) = some (some s) ∧
      h.next s = some tmp ∧
      NullChain ((h.setPrev tmp none).setNext s none)
        ((a :: xs).take (((a :: xs).length + 1) / 2)) ∧
      NullChain ((h.setPrev tmp none).setNext s none)
        ((a :: xs).drop (((a :: xs).length + 1) / 2)) ∧
      ((a :: xs).take (((a :: xs).length + 1) / 2)).length = ((a :: xs).length + 1) / 2 ∧
      ((a :: xs).drop (((a :: xs).length + 1) / 2)).length = (a :: xs).length / 2 ∧
      0 < ((a :: xs).length + 1) / 2 ∧ ((a :: xs).length + 1) / 2 < (a :: xs).length ∧
      0 < (a :: xs).length / 2 ∧ (a :: xs).length / 2 < (a :: xs).length) ∧
    (∃ r, merge_sort fuel h (some a) = some r) ∧
    (∃ g p1 p2 t,
      merge_loop fuel k
        (if strcmp (k.value p) (k.value q) ≤ 0 then k.next p else some p)
        (if strcmp (k.value p) (k.value q) ≤ 0 then some q else k.next q)
        (if strcmp (k.value p) (k.value q) ≤ 0 then p else q) = some (g, p1, p2, t) ∧
      ((p1 = none ∧ p2 ≠ none) ∨ (p1 ≠ none ∧ p2 = none)) ∧
      (merge_finish (g, p1, p2, t)).isSome = true) := by
  have hpos : 0 < xs.length := List.length_pos.mpr hne
  have hlen : (a :: xs).length = xs.length + 1 := rfl
  refine ⟨?_, ?_, ?_⟩
  · obtain ⟨s, tmp, h1, h2, h3, h4⟩ := merge_sort_cut fuel h a xs hc hnd hne (by omega)
    refine ⟨s, tmp, h1, h2, h3, h4, ?_, ?_, ?_, ?_, ?_, ?_⟩
    · rw [List.length_take]; omega
    · rw [List.length_drop]; omega
    · omega
    · omega
    · omega
    · omega
  · obtain ⟨g, hg, -⟩ := merge_sort_spec fuel h (a :: xs) hnd hc hf
    exact ⟨_, hg⟩
  · by_cases hle : strcmp (k.value p) (k.value q) ≤ 0
    · simp only [hle, if_true]
      rw [Path_head? hp.1]
      exact merge_loop_one_left fuel k ps (q :: qs) p hpq (NullChain_tail hp) hq
        (Or.inr (by simp)) (by simp; omega)
    · simp only [hle, if_false]
      rw [Path_head? hq.1]
      have hnd2 : (q :: ((p :: ps) ++ qs)).Nodup :=
        (List.perm_middle.symm : (q :: (p :: ps ++ qs)).Perm (p :: ps ++ q :: qs)).nodup_iff.mpr
          hpq
      exact merge_loop_one_left fuel k (p :: ps) qs q hnd2 hp (NullChain_tail hq)
        (Or.inl (by simp)) (by simp; omega)

/-- C20, on the lists 1, 2, 3 ("a", "c", "e") and 4, 5 ("b", "d"): the list
of three nodes is cut into 1, 2 and 3. -/
theorem merge_sort_parts_witness :
    NullChain two_chains [1, 2, 3] ∧ NullChain two_chains [4, 5] ∧
    ((∃ s tmp, merge_sort_split two_chains 7 (some 1) (two_chains.next 1) = some (some s) ∧
      two_chains.next s = some tmp ∧
      NullChain ((two_chains.setPrev tmp none).setNext s none)
        ([1, 2, 3].take (([1, 2, 3].length + 1) / 2)) ∧
      NullChain ((two_chains.setPrev tmp none).setNext s none)
        ([1, 2, 3].drop (([1, 2, 3].length + 1) / 2)) ∧
      ([1, 2, 3].take (([1, 2, 3].length + 1) / 2)).length = ([1, 2, 3].length + 1) / 2 ∧
      ([1, 2, 3].drop (([1, 2, 3].length + 1) / 2)).length = [1, 2, 3].length / 2 ∧
      0 < ([1, 2, 3].length + 1) / 2 ∧ ([1, 2, 3].length + 1) / 2 < [1, 2, 3].length ∧
      0 < [1, 2, 3].length / 2 ∧ [1, 2, 3].length / 2 < [1, 2, 3].length) ∧
    (∃ r, merge_sort 7 two_chains (some 1) = some r) ∧
    (∃ g p1 p2 t,
      merge_loop 7 two_chains
        (if strcmp (two_chains.value 1) (two_chains.value 4) ≤ 0 then two_chains.next 1
          else some 1)
        (if strcmp (two_chains.value 1) (two_chains.value 4) ≤ 0 then some 4
          else two_chains.next 4)
        (if strcmp (two_chains.value 1) (two_chains.value 4) ≤ 0 then 1 else 4)
        = some (g, p1, p2, t) ∧
      ((p1 = none ∧ p2 ≠ none) ∨ (p1 ≠ none ∧ p2 = none)) ∧
      (merge_finish (g, p1, p2, t)).isSome = true)) ∧
    merge_sort_split two_chains 7 (some 1) (two_chains.next 1) = some (some 2) :=
  ⟨by decide, by decide,
    merge_sort_parts 7 two_chains 1 [2, 3] (by decide) (by decide) (by decide) (by decide)
      two_chains 1 4 [2, 3] [5] (by decide) (by decide) (by decide) (by decide),
    by decide⟩

/-- The indices `memcpy` reads are inside the storage of a string of length
`len` (its `len + 1` bytes) exactly when `n ≤ len + 1`. -/
theorem memcpy_indices_in_bounds (n len : Nat) :
    (∀ i ∈ memcpy_indices n, i < len + 1) ↔ n ≤ len + 1 := by
  simp only [memcpy_indices, List.mem_range]
  constructor
  · intro hall
    by_contra hc
    exact absurd (hall (len + 1) (by omega)) (by omega)
  · intro hn i hi
    omega

/-- The indices written in the buffer are below `bufsize` exactly when
`1 ≤ bufsize`, for a `bufsize` that fits `size_t`. -/
theorem copy_out_writes_in_bounds (bufsize : Nat) (h3 : bufsize < 2 ^ 64) :
    (∀ i ∈ copy_out_writes bufsize, i < bufsize) ↔ 1 ≤ bufsize := by
  simp only [copy_out_writes, memcpy_indices, List.mem_append, List.mem_range,
    List.mem_singleton]
  constructor
  · intro hall
    by_contra hc
    have hb : bufsize = 0 := by omega
    subst hb
    exact absurd (hall _ (Or.inr rfl)) (by omega)
  · intro h1 i hi
    rcases hi with hi | hi
    · exact hi
    · have : bufsize + 2 ^ 64 - 1 = (bufsize - 1) + 2 ^ 64 := by omega
      rw [hi, this, Nat.add_mod_right, Nat.mod_eq_of_lt (by omega)]
      omega

/-- C16: on the queue a, b, c, d, e, f at the nodes 1 to 6 `q_delete_mid`
deletes the node of index 2 and leaves 1, 2, 4, 5, 6, where deleting the node
of index `6 / 2 = 3` would leave 1, 2, 3, 5, 6; on the queue of the four nodes
1, 2, 3, 4 it deletes the node of index 1, not the one of index `4 / 2 = 2`. -/
theorem q_delete_mid_not_half :
    Queue six_queue (some 0) [1, 2, 3, 4, 5, 6] ∧
    (q_delete_mid 7 six_queue (some 0)).bind (fun r => traverse 7 r.1 0)
      = some [1, 2, 4, 5, 6] ∧
    [1, 2, 3, 4, 5, 6].eraseIdx (([1, 2, 3, 4, 5, 6].length - 1) / 2) = [1, 2, 4, 5, 6] ∧
    [1, 2, 3, 4, 5, 6].eraseIdx ([1, 2, 3, 4, 5, 6].length / 2) = [1, 2, 3, 5, 6] ∧
    Queue twice_queue (some 0) [1, 2, 3, 4] ∧
    (q_delete_mid 5 twice_queue (some 0)).bind (fun r => traverse 5 r.1 0) = some [1, 3, 4] ∧
    [1, 2, 3, 4].eraseIdx ([1, 2, 3, 4].length / 2) = [1, 2, 4] :=
  ⟨by decide, by decide, by decide, by decide, by decide, by decide, by decide⟩

/-- C19: on the queue "a", "a", "b" with a buffer of 4 bytes and `bufsize` 4,
`q_remove_head` returns the node 1, whose string "a" is stored in 2 bytes, and
leaves in the buffer "a", its terminator, then the byte that the memory holds
just after the storage of the string: `memcpy` reads the indices 0 to 3 of that
storage.  With `bufsize` 0 the index written by `sp[bufsize - 1] = 0` is
`2 ^ 64 - 1`. -/
theorem q_remove_reads_past_string :
    Queue aab_queue (some 0) [1, 2, 3] ∧ aab_queue.value 1 = [97] ∧
    (q_remove_head 4 aab_queue (some 0) (some [9, 9, 9, 9]) 4 (fun i => 50 + i)).map
      (fun r => (r.2.1, r.2.2)) = some (some 1, some [97, 0, 50, 0]) ∧
    (q_remove_tail 4 aab_queue (some 0) (some [9, 9, 9, 9]) 4 (fun i => 50 + i)).map
      (fun r => (r.2.1, r.2.2)) = some (some 3, some [98, 0, 50, 0]) ∧
    memcpy_indices 4 = [0, 1, 2, 3] ∧
    (∃ i ∈ memcpy_indices 4, ¬ i < (aab_queue.value 1).length + 1) ∧
    copy_out_writes 0 = [2 ^ 64 - 1] ∧ (∃ i ∈ copy_out_writes 0, ¬ i < 0) :=
  ⟨by decide, by decide, by decide, by decide, by decide, by decide, by decide, by decide⟩

end Lab0
